import Mathlib

/-!
Verification of the gmail-archive repository's specification against a shallow
embedding of its Python sources.  Strings are embedded as `List Char`; each
`re.sub` call of the source is embedded as a specialised scanner (`csub` with a
per-pattern matcher) reproducing Python's leftmost, non-overlapping match
semantics for the concrete patterns appearing in the code.
-/

namespace GmailArchive

set_option maxRecDepth 16384

/-- Python whitespace test: the character set matched by `str.split()`,
`str.strip()` and the regex class `\s` on `str` patterns in CPython 3
(ASCII whitespace, the C1 separators, NEL, NBSP, Ogham space mark,
the U+2000 block spaces, line/paragraph separators, NNBSP, MMSP and
ideographic space). -/
def pyWs (c : Char) : Bool :=
  let n := c.toNat
  n == 32 || (9 ≤ n && n ≤ 13) || (28 ≤ n && n ≤ 31) || n == 133 ||
  n == 160 || n == 5760 || (8192 ≤ n && n ≤ 8202) || n == 8232 ||
  n == 8233 || n == 8239 || n == 8287 || n == 12288

/-- ASCII lower-casing, the fragment of `str.lower()` relevant to the
catalogue names and labels handled by the sources. -/
def asciiLower (c : Char) : Char :=
  if 65 ≤ c.toNat && c.toNat ≤ 90 then Char.ofNat (c.toNat + 32) else c

/-- Lower-case a whole string. -/
def lowerStr (s : List Char) : List Char :=
  s.map asciiLower

/-- Case-insensitive prefix test (used for `re.IGNORECASE` literals). -/
def ciPref : List Char → List Char → Bool
  | [], _ => true
  | _ :: _, [] => false
  | p :: ps, c :: cs => (asciiLower p == asciiLower c) && ciPref ps cs

/-- Case-sensitive prefix test. -/
def litPref : List Char → List Char → Bool
  | [], _ => true
  | _ :: _, [] => false
  | p :: ps, c :: cs => (p == c) && litPref ps cs

/-- Index of the first (case-insensitive) occurrence of `pat` in `s`. -/
def findCI (pat : List Char) : List Char → Option Nat
  | [] => if ciPref pat [] then some 0 else none
  | c :: cs =>
    if ciPref pat (c :: cs) then some 0
    else match findCI pat cs with
      | some k => some (k + 1)
      | none => none

/-- Substring test (Python's `in` on `str`). -/
def subStr (pat : List Char) : List Char → Bool
  | [] => litPref pat []
  | c :: cs => litPref pat (c :: cs) || subStr pat cs

/-- Fuel-driven global substitution: at each position, if the matcher accepts
a prefix of the remaining input (returning its length, always at least 1 for
the matchers used here), that prefix is replaced by `rep` and scanning resumes
after it, exactly as `re.sub` does; otherwise the character is kept. -/
def csub (m : List Char → Option Nat) (rep : List Char) : Nat → List Char → List Char
  | _, [] => []
  | 0, s => s
  | fuel + 1, c :: cs =>
    match m (c :: cs) with
    | some n => rep ++ csub m rep fuel (List.drop (n - 1) cs)
    | none => c :: csub m rep fuel cs

/-- Global substitution with adequate fuel. -/
def subst (m : List Char → Option Nat) (rep : List Char) (s : List Char) : List Char :=
  csub m rep s.length s

/-! Matchers for the concrete regular expressions of
`src/gmail_archive/email_body_utils.py`. -/

/-- Matcher for the pattern `<[^>]+>` of `clean_html`: at a `<`, the greedy
class run extends to the first `>`, which must exist and be at distance at
least two. -/
def tagM : List Char → Option Nat
  | [] => none
  | c :: cs =>
    if c = '<' then
      let t := cs.takeWhile (fun d => d != '>')
      if 1 ≤ t.length ∧ t.length < cs.length then some (t.length + 2) else none
    else none

/-- Matcher for `\s+` (used with replacement `" "`): a maximal whitespace
run. -/
def wsM : List Char → Option Nat
  | [] => none
  | c :: cs => if pyWs c then some ((cs.takeWhile pyWs).length + 1) else none

/-- Matcher for `<style[^>]*>.*?</style>` with `re.DOTALL | re.IGNORECASE`:
the literal `<style`, the run to the first `>`, then the lazy run to the first
`</style>`. -/
def styleM (s : List Char) : Option Nat :=
  if ciPref ('<' :: 's' :: 't' :: 'y' :: 'l' :: 'e' :: []) s then
    let rest := s.drop 6
    let t := rest.takeWhile (fun c => c != '>')
    if t.length < rest.length then
      match findCI ('<' :: '/' :: 's' :: 't' :: 'y' :: 'l' :: 'e' :: '>' :: []) (rest.drop (t.length + 1)) with
      | some k => some (6 + t.length + 1 + k + 8)
      | none => none
    else none
  else none

/-- Matcher for `@import[^;]*;` with `re.IGNORECASE`: the literal `@import`
followed by the run to the first `;`, which must exist. -/
def importM (s : List Char) : Option Nat :=
  if ciPref ('@' :: 'i' :: 'm' :: 'p' :: 'o' :: 'r' :: 't' :: []) s then
    let rest := s.drop 7
    let t := rest.takeWhile (fun c => c != ';')
    if t.length < rest.length then some (7 + t.length + 1) else none
  else none

/-- Matcher for `/\*.*?\*/` with `re.DOTALL`: a CSS comment, lazily ended at
the first closing delimiter. -/
def commentM (s : List Char) : Option Nat :=
  if litPref ('/' :: '*' :: []) s then
    match findCI ('*' :: '/' :: []) (s.drop 2) with
    | some k => some (2 + k + 2)
    | none => none
  else none

/-- Character class `[a-zA-Z0-9\-_\.\s]` of the brace-rule pattern. -/
def braceClassA (c : Char) : Bool :=
  c.isAlphanum || c == '-' || c == '_' || c == '.' || pyWs c

/-- Matcher for `[a-zA-Z#\.][a-zA-Z0-9\-_\.\s]*\s*\{[^}]*\}`: a selector-like
run followed by a brace block ended at the first `}`.  Because `{` is outside
the class and `\s` is inside it, the greedy run must end exactly at a `{`. -/
def braceM : List Char → Option Nat
  | [] => none
  | c :: cs =>
    if c.isAlpha || c == '#' || c == '.' then
      let r := cs.takeWhile braceClassA
      match cs.drop r.length with
      | [] => none
      | d :: rest2 =>
        if d = '{' then
          let t := rest2.takeWhile (fun e => e != '}')
          if t.length < rest2.length then some (1 + r.length + 1 + t.length + 1)
          else none
        else none
    else none

/-- Matcher for a catalogue pattern `name\s*:\s*[^;]+;` with `re.IGNORECASE`:
the value run extends to the first `;`, which must exist, with at least one
character before it. -/
def propM (name : List Char) (s : List Char) : Option Nat :=
  if ciPref name s then
    let rest := s.drop name.length
    let w := rest.takeWhile pyWs
    match rest.drop w.length with
    | [] => none
    | d :: rest2 =>
      if d = ':' then
        let v := rest2.takeWhile (fun c => c != ';')
        if 1 ≤ v.length ∧ v.length < rest2.length then
          some (name.length + w.length + 1 + v.length + 1)
        else none
      else none
  else none

/-- Matcher for the final generic sweep `[a-zA-Z\-]+\s*:\s*[^;]+;`. -/
def genericM : List Char → Option Nat
  | [] => none
  | c :: cs =>
    if c.isAlpha || c = '-' then
      let r := cs.takeWhile (fun d => d.isAlpha || d == '-')
      let rest := cs.drop r.length
      let w := rest.takeWhile pyWs
      match rest.drop w.length with
      | [] => none
      | d :: rest2 =>
        if d = ':' then
          let v := rest2.takeWhile (fun e => e != ';')
          if 1 ≤ v.length ∧ v.length < rest2.length then
            some (1 + r.length + w.length + 1 + v.length + 1)
          else none
        else none
    else none

/-- Matcher for an end-of-string pattern `name\s*:\s*[^;]*$` with
`re.IGNORECASE`: since `[^;]*` cannot cross a `;` and `$` only matches at the
end (or before a final newline, which `[^;]*` then absorbs), the pattern
matches exactly when no `;` follows the colon, and it consumes the whole
remaining string. -/
def incM (name : List Char) (s : List Char) : Option Nat :=
  if ciPref name s then
    let rest := s.drop name.length
    let w := rest.takeWhile pyWs
    match rest.drop w.length with
    | [] => none
    | d :: rest2 =>
      if d = ':' then (if rest2.contains ';' then none else some s.length)
      else none
  else none

/-- Matcher for a case-insensitive literal (the `!important;` entry). -/
def litM (lit : List Char) (s : List Char) : Option Nat :=
  if ciPref lit s then some lit.length else none

/-- The `css_patterns` catalogue of `clean_css`, in source order; the
`!important;` entry is a plain literal. -/
def cssMatchers : List (List Char → Option Nat) :=
  ([ "font-family", "color", "background-color", "background", "padding",
     "margin", "border", "width", "height", "display", "position", "float",
     "clear", "overflow", "text-align", "line-height", "font-size",
     "font-weight", "text-decoration" ].map (fun n => propM n.data)) ++
  [litM "!important;".data] ++
  ([ "outline", "border-collapse", "table-layout", "overflow-wrap",
     "word-wrap", "word-break", "-webkit-text-size-adjust", "-ms-word-break",
     "src", "format", "font-style" ].map (fun n => propM n.data))

/-- The `incomplete_css` catalogue of `clean_css`, in source order. -/
def incompleteNames : List String :=
  [ "line-height", "background", "border", "width", "height", "display",
    "position", "float", "clear", "overflow", "text-align", "font-size",
    "font-weight", "text-decoration", "outline", "border-collapse",
    "table-layout", "overflow-wrap", "word-wrap", "word-break",
    "-webkit-text-size-adjust", "-ms-word-break", "src", "format",
    "font-style" ]

/-- All deleting substitutions of `clean_css`, in the order the source applies
them. -/
def allCssMatchers : List (List Char → Option Nat) :=
  [styleM, importM, commentM, braceM] ++ cssMatchers ++
  incompleteNames.map (fun n => incM n.data) ++ [genericM]

/-- Apply a list of deleting substitutions in order. -/
def applyAll (ms : List (List Char → Option Nat)) (s : List Char) : List Char :=
  ms.foldl (fun b mm => subst mm [] b) s

/-! Python string helpers used by the sources. -/

/-- Fuel-driven word splitter behind `str.split()`. -/
def wordsF : Nat → List Char → List (List Char)
  | _, [] => []
  | 0, _ => []
  | f + 1, c :: cs =>
    if pyWs c then wordsF f cs
    else (c :: cs.takeWhile (fun d => !pyWs d)) ::
      wordsF f (cs.dropWhile (fun d => !pyWs d))

/-- Embedding of `str.split()`: maximal non-whitespace runs, no empties. -/
def pySplit (s : List Char) : List (List Char) := wordsF s.length s

/-- Embedding of `" ".join(...)`. -/
def joinSp : List (List Char) → List Char
  | [] => []
  | [w] => w
  | w :: rest => w ++ ' ' :: joinSp rest

/-- Left trim of Python `str.strip()`. -/
def ltrim (s : List Char) : List Char := s.dropWhile pyWs

/-- Right trim of Python `str.strip()`. -/
def rtrim (s : List Char) : List Char := (s.reverse.dropWhile pyWs).reverse

/-- Embedding of `str.strip()`. -/
def pyStrip (s : List Char) : List Char := rtrim (ltrim s)

/-! Embeddings of the `EmailBodyUtils` static methods. -/

/-- Embedding of `EmailBodyUtils.strip`: the early return on an empty body,
then `" ".join(body.split())`, then `re.sub(r"\s+", " ", body).strip()`. -/
def strip (body : List Char) : List Char :=
  if body = [] then body
  else pyStrip (subst wsM [' '] (joinSp (pySplit body)))

/-- Embedding of `EmailBodyUtils.clean_html`: the early return, the tag
removal `re.sub(r"<[^>]+>", "", body)`, then the whitespace collapse
`re.sub(r"\s+", " ", body).strip()`. -/
def clean_html (body : List Char) : List Char :=
  if body = [] then body
  else pyStrip (subst wsM [' '] (subst tagM [] body))

/-- Embedding of `EmailBodyUtils.clean_css`: the early return, the style
block, `@import`, comment, brace rule, catalogue, end-of-string catalogue and
generic sweeps in source order, then the whitespace collapse. -/
def clean_css (body : List Char) : List Char :=
  if body = [] then body
  else pyStrip (subst wsM [' '] (applyAll allCssMatchers body))

/-- Embedding of `EmailBodyUtils.clean_strip`: the early return, then
`clean_html`, `clean_css` and `strip` in order. -/
def clean_strip (body : List Char) : List Char :=
  if body = [] then body
  else strip (clean_css (clean_html body))

/-! Exception-instrumented variants for the failure-policy claim: every
primitive string or regex step of the pipeline is given the `Except` type it
would have if it could raise, so that a raised exception would propagate to
the caller; the steps are total because the patterns are fixed and valid. -/

/-- One `re.sub` call as an `Except`-valued step. -/
def re_subE (m : List Char → Option Nat) (rep : List Char) (s : List Char) :
    Except Unit (List Char) :=
  Except.ok (subst m rep s)

/-- One pure string-method call as an `Except`-valued step. -/
def strCallE (f : List Char → List Char) (s : List Char) : Except Unit (List Char) :=
  Except.ok (f s)

/-- Exception-instrumented `clean_html`. -/
def clean_htmlE (body : List Char) : Except Unit (List Char) :=
  if body = [] then Except.ok body
  else do
    let b1 ← re_subE tagM [] body
    let b2 ← re_subE wsM [' '] b1
    strCallE pyStrip b2

/-- Exception-instrumented `clean_css`. -/
def clean_cssE (body : List Char) : Except Unit (List Char) :=
  if body = [] then Except.ok body
  else do
    let b1 ← allCssMatchers.foldlM (fun b mm => re_subE mm [] b) body
    let b2 ← re_subE wsM [' '] b1
    strCallE pyStrip b2

/-- Exception-instrumented `strip`. -/
def stripE (body : List Char) : Except Unit (List Char) :=
  if body = [] then Except.ok body
  else do
    let b1 ← strCallE (fun s => joinSp (pySplit s)) body
    let b2 ← re_subE wsM [' '] b1
    strCallE pyStrip b2

/-- Exception-instrumented `clean_strip`. -/
def clean_stripE (body : List Char) : Except Unit (List Char) :=
  if body = [] then Except.ok body
  else do
    let b1 ← clean_htmlE body
    let b2 ← clean_cssE b1
    stripE b2

/-! Properties of interest, as predicates on strings. -/

/-- Decidable absence of any substring matching the tag pattern `<[^>]+>`:
every `<` is last, is immediately followed by `>`, or has no `>` anywhere
after it. -/
def noTagB : List Char → Bool
  | [] => true
  | c :: cs =>
    if c = '<' then
      match cs with
      | [] => true
      | d :: r => if d = '>' then noTagB r else !cs.contains '>'
    else noTagB cs

/-- Propositional form: no substring of `t` matches the tag pattern
`<[^>]+>`, i.e. any bracketed decomposition has an empty interior or an
interior containing `>`. -/
def NoTagP (t : List Char) : Prop :=
  ∀ a m b, t = a ++ '<' :: (m ++ '>' :: b) → m = [] ∨ '>' ∈ m

/-- Decidable absence of two consecutive ASCII space characters. -/
def noTwoSp : List Char → Bool
  | [] => true
  | [_] => true
  | a :: b :: r => !(a == ' ' && b == ' ') && noTwoSp (b :: r)

/-- Reference definition of the whitespace collapse, following the spec's
words: split the string on any run of whitespace, discard empty fragments,
and rejoin the fragments with a single ASCII space. -/
def stripSpec (s : List Char) : List Char := joinSp (pySplit s)

/-- A string free of markup, read as: it contains none of the characters
that can open an HTML tag or any CSS construct handled by the pipeline
(`<` for tags and style blocks, `{` for rule blocks, `@` for imports,
`:` for property declarations, `!` for the important marker, `/` for
comments). -/
def markupFree (s : List Char) : Prop :=
  ∀ c ∈ s, c ∉ (['<', '{', '@', ':', '!', '/'] : List Char)

/-- Modelled from the spec: `EmailBodyUtils.to_text`, the later-generation
normalizer called by `EmailTableFormatter._format_body`, is not present under
`src/`.  Following the spec, its invisible-character stage removes every code
point of Unicode general category C except newline, carriage return and
horizontal tab, which are preserved for the whitespace pass.  The category-C
test is a parameter, the Unicode table being external data. -/
def removeOtherCat (catC : Char → Bool) (s : List Char) : List Char :=
  s.filter (fun c => !catC c || c = '\n' || c = '\r' || c = '\t')

/-- Modelled from the spec: the `to_text` pipeline on markup-free bodies —
the markup-conversion stage is the identity there — is the
invisible-character removal followed by the split/join whitespace collapse. -/
def to_text_model (catC : Char → Bool) (s : List Char) : List Char :=
  joinSp (pySplit (removeOtherCat catC s))

/-! Embedding of `EmailClassifier.classify_email`
(`src/gmail_archive/email_classifier.py`).  The chat-completion call is
abstracted as its outcome: `Except.error` when the call raises,
`Except.ok content` with the optional message content otherwise. -/

/-- The `valid_categories` list of `classify_email`. -/
def validCategories : List (List Char) :=
  ["Informational".data, "Promotional/Marketing".data, "Personal".data,
   "Other".data]

/-- The label-mapping logic of `classify_email` after the response has been
stripped: exact match against the valid categories, then the case-insensitive
substring heuristics in source order, defaulting to `Other`. -/
def map_classification (classification : List Char) : List Char :=
  if classification ∈ validCategories then classification
  else if subStr "informational".data (lowerStr classification) ||
      subStr "info".data (lowerStr classification) then
    "Informational".data
  else if subStr "promotional".data (lowerStr classification) ||
      subStr "marketing".data (lowerStr classification) then
    "Promotional/Marketing".data
  else if subStr "personal".data (lowerStr classification) ||
      subStr "work".data (lowerStr classification) ||
      subStr "correspondence".data (lowerStr classification) then
    "Personal".data
  else "Other".data

/-- The label mapping as the spec words it: exact match first, then the
case-insensitive substring heuristics `info`, `promotional`/`marketing`,
`personal`/`work`/`correspondence` in this priority order, defaulting to
`Other`. -/
def map_classification_spec (classification : List Char) : List Char :=
  if classification ∈ validCategories then classification
  else if subStr "info".data (lowerStr classification) then "Informational".data
  else if subStr "promotional".data (lowerStr classification) ||
      subStr "marketing".data (lowerStr classification) then
    "Promotional/Marketing".data
  else if subStr "personal".data (lowerStr classification) ||
      subStr "work".data (lowerStr classification) ||
      subStr "correspondence".data (lowerStr classification) then
    "Personal".data
  else "Other".data

/-- Embedding of `classify_email`: on a raised call, `Unknown`; otherwise the
content (`None` coerced to the empty string) is stripped and mapped. -/
def classify_email (resp : Except Unit (Option (List Char))) : List Char :=
  match resp with
  | Except.error _ => "Unknown".data
  | Except.ok content => map_classification (pyStrip (content.getD []))

/-! Embedding of the classification batch loop `classify_emails` over an
explicit store, so that the copy-then-attach behaviour is observable: Python
dictionaries are heap objects, modelled as association lists held in a store
addressed by `Nat` references; `email.copy()` allocates a fresh slot and the
`"classification"` assignment updates only that fresh slot. -/

/-- Python-style association list standing for one email dictionary. -/
def Dict : Type := List (String × List Char)

/-- Dictionary assignment `d[k] = v`: replace the existing binding or append
a new one. -/
def dictSet (k : String) (v : List Char) : Dict → Dict
  | [] => [(k, v)]
  | (k', v') :: rest => if k' = k then (k, v) :: rest else (k', v') :: dictSet k v rest

/-- The loop body of `classify_emails`: for each reference, classify the
referenced dictionary, allocate a copy at the end of the store, attach the
label to the copy, and collect the new reference. -/
def classifyGo (resp : Dict → Except Unit (Option (List Char))) :
    List Dict → List Nat → List Dict × List Nat
  | st, [] => (st, [])
  | st, r :: rs =>
    let d := st.getD r []
    let label := classify_email (resp d)
    let st2 := (st ++ [d]).set st.length (dictSet "classification" label d)
    let res := classifyGo resp st2 rs
    (res.1, st.length :: res.2)

/-- Embedding of `classify_emails`: the early return on an empty list, then
the loop. -/
def classify_emails_st (resp : Dict → Except Unit (Option (List Char)))
    (st : List Dict) (refs : List Nat) : List Dict × List Nat :=
  if refs = [] then (st, refs) else classifyGo resp st refs

/-! Embedding of `GmailClient._extract_body` and `get_unread_emails`
(`src/gmail_archive/gmail_client.py`). -/

/-- One entry of `payload["parts"]`: its optional `mimeType` and the optional
`data` of its `body`. -/
structure MsgPart where
  mimeType : Option String
  pdata : Option (List Char)

/-- A message payload: optional `mimeType`, optional `body` `data`, optional
`parts`. -/
structure Payload where
  mimeType : Option String
  pdata : Option (List Char)
  parts : Option (List MsgPart)

/-- The `types` list of `_extract_body`. -/
def mimeTypes : List String := ["text/plain", "text/html"]

/-- Value of a base64url alphabet character. -/
def b64Val (c : Char) : Option Nat :=
  let n := c.toNat
  if 65 ≤ n ∧ n ≤ 90 then some (n - 65)
  else if 97 ≤ n ∧ n ≤ 122 then some (n - 71)
  else if 48 ≤ n ∧ n ≤ 57 then some (n + 4)
  else if c = '-' then some 62
  else if c = '_' then some 63
  else none

/-- Decode base64 groups (padding already stripped): four characters yield
three bytes, a final pair or triple yields one or two bytes, a lone trailing
character is invalid. -/
def quadDecode : List Char → Option (List Nat)
  | [] => some []
  | [_] => none
  | [a, b] => some [((b64Val a).getD 0) * 4 + ((b64Val b).getD 0) / 16]
  | [a, b, c] =>
    let v := ((b64Val a).getD 0) * 4096 + ((b64Val b).getD 0) * 64 + ((b64Val c).getD 0)
    some [v / 1024, v / 4 % 256]
  | a :: b :: c :: d :: rest =>
    let v := ((b64Val a).getD 0) * 262144 + ((b64Val b).getD 0) * 4096 +
      ((b64Val c).getD 0) * 64 + ((b64Val d).getD 0)
    match quadDecode rest with
    | some bs => some (v / 65536 :: v / 256 % 256 :: v % 256 :: bs)
    | none => none

/-- Embedding of `base64.urlsafe_b64decode` on text input: characters outside
the alphabet are discarded, the remaining length must be a multiple of four
(else `binascii.Error` is raised, modelled as `none`), and `=` only pads the
tail. -/
def urlsafe_b64decode (s : List Char) : Option (List Nat) :=
  let t := s.filter (fun c => (b64Val c).isSome || c == '=')
  if t.length % 4 = 0 then quadDecode (t.takeWhile (fun c => c != '=')) else none

/-- Fuel-driven UTF-8 decoder with `errors="ignore"`: invalid bytes and
truncated or out-of-range sequences are skipped instead of raising. -/
def utf8F : Nat → List Nat → List Char
  | 0, _ => []
  | _, [] => []
  | f + 1, b :: rest =>
    if b < 128 then Char.ofNat b :: utf8F f rest
    else if 194 ≤ b ∧ b ≤ 223 then
      match rest with
      | b1 :: rest1 =>
        if 128 ≤ b1 ∧ b1 ≤ 191 then
          Char.ofNat ((b - 192) * 64 + (b1 - 128)) :: utf8F f rest1
        else utf8F f rest
      | [] => []
    else if 224 ≤ b ∧ b ≤ 239 then
      match rest with
      | b1 :: rest1 =>
        if (if b = 224 then 160 ≤ b1 ∧ b1 ≤ 191
            else if b = 237 then 128 ≤ b1 ∧ b1 ≤ 159
            else 128 ≤ b1 ∧ b1 ≤ 191) then
          match rest1 with
          | b2 :: rest2 =>
            if 128 ≤ b2 ∧ b2 ≤ 191 then
              Char.ofNat ((b - 224) * 4096 + (b1 - 128) * 64 + (b2 - 128)) :: utf8F f rest2
            else utf8F f rest1
          | [] => []
        else utf8F f rest
      | [] => []
    else if 240 ≤ b ∧ b ≤ 244 then
      match rest with
      | b1 :: rest1 =>
        if (if b = 240 then 144 ≤ b1 ∧ b1 ≤ 191
            else if b = 244 then 128 ≤ b1 ∧ b1 ≤ 143
            else 128 ≤ b1 ∧ b1 ≤ 191) then
          match rest1 with
          | b2 :: rest2 =>
            if 128 ≤ b2 ∧ b2 ≤ 191 then
              match rest2 with
              | b3 :: rest3 =>
                if 128 ≤ b3 ∧ b3 ≤ 191 then
                  Char.ofNat ((b - 240) * 262144 + (b1 - 128) * 4096 +
                    (b2 - 128) * 64 + (b3 - 128)) :: utf8F f rest3
                else utf8F f rest2
              | [] => []
            else utf8F f rest1
          | [] => []
        else utf8F f rest
      | [] => []
    else utf8F f rest

/-- UTF-8 decoding with invalid sequences dropped (`errors="ignore"`). -/
def utf8DecodeIgnore (bs : List Nat) : List Char :=
  utf8F bs.length bs

/-- Embedding of `_decode_base64`: base64url decode (a raise propagates as
`Except.error`), then UTF-8 decode with invalid bytes dropped. -/
def decode_base64 (d : List Char) : Except Unit (List Char) :=
  match urlsafe_b64decode d with
  | some bytes => Except.ok (utf8DecodeIgnore bytes)
  | none => Except.error ()

/-- The loop of `_extract_body` over a multipart message: return the decoded
data of the first part whose mime type is in `types` and whose body carries
data; return the empty string if none qualifies. -/
def extractFromParts : List MsgPart → Except Unit (List Char)
  | [] => Except.ok []
  | p :: ps =>
    match p.mimeType with
    | some mt =>
      if mt ∈ mimeTypes then
        match p.pdata with
        | some d => decode_base64 d
        | none => extractFromParts ps
      else extractFromParts ps
    | none => extractFromParts ps

/-- Embedding of `_extract_body`: multipart messages delegate to the part
loop; otherwise the payload's own mime type and data are used. -/
def extract_body (payload : Payload) : Except Unit (List Char) :=
  match payload.parts with
  | some parts => extractFromParts parts
  | none =>
    match payload.mimeType with
    | some mt =>
      if mt ∈ mimeTypes then
        match payload.pdata with
        | some d => decode_base64 d
        | none => Except.ok []
      else Except.ok []
    | none => Except.ok []

/-- Acceptance test of the part loop, for the characterization of
`_extract_body`: mime type among `types` and body data present. -/
def partOk (p : MsgPart) : Bool :=
  (match p.mimeType with
   | some mt => decide (mt ∈ mimeTypes)
   | none => false) && p.pdata.isSome

/-- Embedding of `_extract_header`: first header with the given
case-sensitive name, else the empty string. -/
def extract_header (headers : List (String × String)) (name : String) : String :=
  match headers.find? (fun h => h.1 = name) with
  | some h => h.2
  | none => ""

/-- A fetched Gmail message: its headers and payload. -/
structure GmailMessage where
  headers : List (String × String)
  payload : Payload

/-- The Gmail API surface used by `get_unread_emails`, abstracted as
outcome-valued calls (`Except.error` models a raised `HttpError` or other
exception). -/
structure GmailService where
  listUnread : Nat → Except Unit (List String)
  getMsg : String → Except Unit GmailMessage

/-- Build one `email_data` dictionary from a fetched message. -/
def msgToDict (msg : GmailMessage) : Except Unit Dict := do
  let body ← extract_body msg.payload
  Except.ok [("from", (extract_header msg.headers "From").data),
    ("subject", (extract_header msg.headers "Subject").data),
    ("body", body),
    ("date", (extract_header msg.headers "Date").data)]

/-- Embedding of `get_unread_emails`: when the service handle is unset the
function returns the empty list at once; otherwise the listed ids are fetched
one by one and any raised exception is caught and turned into the empty
list. -/
def get_unread_emails (service : Option GmailService) (maxResults : Nat) :
    List Dict :=
  match service with
  | none => []
  | some svc =>
    match (do
        let ids ← svc.listUnread maxResults
        if ids = [] then Except.ok ([] : List Dict)
        else ids.mapM (fun mid => do
          let msg ← svc.getMsg mid
          msgToDict msg) : Except Unit (List Dict)) with
    | Except.ok emails => emails
    | Except.error _ => []



/-- Concrete classifier oracle for witness instantiation. -/
def respW : Dict → Except Unit (Option (List Char)) :=
  fun _ => Except.ok (some "Personal".data)

/-- Concrete one-record store for witness instantiation. -/
def stW : List Dict := [[("from", "a".data)]]

/-- Concrete reference list for witness instantiation. -/
def refsW : List Nat := [0]


/-- Head test used to show a catalogue matcher cannot fire at a `>`. -/
def headNotGt : List Char → Bool
  | [] => false
  | c :: _ => asciiLower c != '>'

/-! Theorems. -/

theorem csub_fuel (m : List Char → Option Nat) (rep : List Char) :
    ∀ f₁ : Nat, ∀ s : List Char, ∀ f₂ : Nat, s.length ≤ f₁ → s.length ≤ f₂ →
      csub m rep f₁ s = csub m rep f₂ s := by
  intro f₁
  induction f₁ with
  | zero =>
    intro s f₂ h₁ _
    have hs : s = [] := List.length_eq_zero.mp (Nat.le_zero.mp h₁)
    subst hs
    cases f₂ <;> rfl
  | succ f ih =>
    intro s f₂ h₁ h₂
    cases s with
    | nil => cases f₂ <;> rfl
    | cons c cs =>
      cases f₂ with
      | zero => exact absurd h₂ (by simp)
      | succ f₂ =>
        cases hm : m (c :: cs) with
        | some n =>
          have hlen : (List.drop (n - 1) cs).length ≤ f := by
            have := List.length_drop (n - 1) cs
            simp only [List.length_cons] at h₁
            omega
          have hlen₂ : (List.drop (n - 1) cs).length ≤ f₂ := by
            have := List.length_drop (n - 1) cs
            simp only [List.length_cons] at h₂
            omega
          simp only [csub, hm, ih _ _ hlen hlen₂]
        | none =>
          have hlen : cs.length ≤ f := by
            simp only [List.length_cons] at h₁; omega
          have hlen₂ : cs.length ≤ f₂ := by
            simp only [List.length_cons] at h₂; omega
          simp only [csub, hm, ih _ _ hlen hlen₂]

@[simp] theorem subst_nil (m : List Char → Option Nat) (rep : List Char) :
    subst m rep [] = [] := rfl

theorem subst_cons_some {m : List Char → Option Nat} {rep : List Char}
    {c : Char} {cs : List Char} {n : Nat} (h : m (c :: cs) = some n) :
    subst m rep (c :: cs) = rep ++ subst m rep (List.drop (n - 1) cs) := by
  simp only [subst, List.length_cons, csub, h]
  congr 1
  exact csub_fuel m rep _ _ _ (by simp) (Nat.le_refl _)

theorem subst_cons_none {m : List Char → Option Nat} {rep : List Char}
    {c : Char} {cs : List Char} (h : m (c :: cs) = none) :
    subst m rep (c :: cs) = c :: subst m rep cs := by
  simp only [subst, List.length_cons, csub, h]

/-- Induction principle following the scan structure of `subst` with matcher
`m`: to prove `P` of every string it suffices to handle the empty string, a
successful match (recurring after the matched span) and a failed match
(recurring on the tail). -/
theorem scanInd (m : List Char → Option Nat) (P : List Char → Prop)
    (h0 : P [])
    (hsome : ∀ c cs n, m (c :: cs) = some n → P (List.drop (n - 1) cs) → P (c :: cs))
    (hnone : ∀ c cs, m (c :: cs) = none → P cs → P (c :: cs)) :
    ∀ s, P s := by
  have key : ∀ bound : Nat, ∀ s : List Char, s.length ≤ bound → P s := by
    intro bound
    induction bound with
    | zero =>
      intro s hs
      have : s = [] := List.length_eq_zero.mp (Nat.le_zero.mp hs)
      exact this ▸ h0
    | succ b ih =>
      intro s hs
      cases s with
      | nil => exact h0
      | cons c cs =>
        cases hm : m (c :: cs) with
        | some n =>
          refine hsome c cs n hm (ih _ ?_)
          have := List.length_drop (n - 1) cs
          simp only [List.length_cons] at hs
          omega
        | none =>
          refine hnone c cs hm (ih _ ?_)
          simp only [List.length_cons] at hs
          omega
  exact fun s => key s.length s (Nat.le_refl _)

/-- Every character of a substitution's output is a character of the input or
of the replacement string. -/
theorem mem_subst {m : List Char → Option Nat} {rep : List Char} :
    ∀ {s : List Char} {x : Char}, x ∈ subst m rep s → x ∈ s ∨ x ∈ rep := by
  have h := scanInd m
    (fun s => ∀ x : Char, x ∈ subst m rep s → x ∈ s ∨ x ∈ rep)
    (by intro x hx; simp [subst, csub] at hx)
    (by
      intro c cs n hm ih x hx
      rw [subst_cons_some hm] at hx
      rcases List.mem_append.mp hx with hx | hx
      · exact Or.inr hx
      · rcases ih x hx with hx | hx
        · exact Or.inl (List.mem_cons_of_mem _ (List.mem_of_mem_drop hx))
        · exact Or.inr hx)
    (by
      intro c cs hm ih x hx
      rw [subst_cons_none hm] at hx
      rcases List.mem_cons.mp hx with hx | hx
      · exact Or.inl (hx ▸ List.mem_cons_self _ _)
      · rcases ih x hx with hx | hx
        · exact Or.inl (List.mem_cons_of_mem _ hx)
        · exact Or.inr hx)
  exact fun {s x} hx => h s x hx

/-- If the matcher rejects every suffix of `s`, the substitution keeps `s`
unchanged. -/
theorem subst_eq_self {m : List Char → Option Nat} {rep : List Char} :
    ∀ {s : List Char}, (∀ i, m (s.drop i) = none) → subst m rep s = s := by
  intro s
  induction s with
  | nil => intro _; rfl
  | cons c cs ih =>
    intro h
    have h0 := h 0
    simp only [List.drop_zero] at h0
    rw [subst_cons_none h0]
    congr 1
    exact ih (fun i => by have := h (i + 1); simpa using this)


/-! Failure policy (C3). -/

theorem foldlM_re_subE (ms : List (List Char → Option Nat)) :
    ∀ b : List Char,
      ms.foldlM (fun b mm => re_subE mm [] b) b = Except.ok (applyAll ms b) := by
  induction ms with
  | nil => intro b; rfl
  | cons m ms ih =>
    intro b
    show (re_subE m [] b >>= fun b2 => ms.foldlM (fun b mm => re_subE mm [] b) b2) = _
    rw [re_subE]
    show ms.foldlM (fun b mm => re_subE mm [] b) (subst m [] b) = _
    rw [ih]
    rfl

theorem clean_htmlE_ok (s : List Char) : clean_htmlE s = Except.ok (clean_html s) := by
  by_cases h : s = []
  · subst h; rfl
  · simp only [clean_htmlE, clean_html, if_neg h]
    rfl

theorem clean_cssE_ok (s : List Char) : clean_cssE s = Except.ok (clean_css s) := by
  by_cases h : s = []
  · subst h; rfl
  · simp only [clean_cssE, clean_css, if_neg h]
    show ((allCssMatchers.foldlM (fun b mm => re_subE mm [] b) s) >>= fun b1 =>
      re_subE wsM [' '] b1 >>= fun b2 => strCallE pyStrip b2) = _
    rw [foldlM_re_subE]
    rfl

theorem stripE_ok (s : List Char) : stripE s = Except.ok (strip s) := by
  by_cases h : s = []
  · subst h; rfl
  · simp only [stripE, strip, if_neg h]
    rfl

/-- C3: the normalization pipeline `clean_strip` is total and raises no
exception: the exception-instrumented embedding, in which every primitive
step has an `Except` type so that a raise would propagate, returns
`Except.ok` of the pure result on every input. -/
theorem clean_strip_never_fails :
    ∀ s : List Char, clean_stripE s = Except.ok (clean_strip s) := by
  intro s
  by_cases h : s = []
  · subst h; rfl
  · simp only [clean_stripE, clean_strip, if_neg h]
    rw [clean_htmlE_ok]
    show (clean_cssE (clean_html s) >>= fun b2 => stripE b2) = _
    rw [clean_cssE_ok]
    show stripE (clean_css (clean_html s)) = _
    rw [stripE_ok]

/-! Unauthenticated retrieval (C10). -/

/-- C10: when the service handle is still unset, `get_unread_emails` returns
the empty list for every `max_results` value, raising no error. -/
theorem get_unread_emails_unauthenticated :
    ∀ maxResults : Nat, get_unread_emails none maxResults = [] :=
  fun _ => rfl

/-! Body extraction (C8). -/

theorem extractFromParts_eq_find (ps : List MsgPart) :
    extractFromParts ps =
      match ps.find? partOk with
      | some p => decode_base64 (p.pdata.getD [])
      | none => Except.ok [] := by
  induction ps with
  | nil => rfl
  | cons p ps ih =>
    cases hmt : p.mimeType with
    | none =>
      have hok : partOk p = false := by simp [partOk, hmt]
      simp only [extractFromParts, hmt, List.find?_cons, hok]
      exact ih
    | some mt =>
      by_cases hmem : mt ∈ mimeTypes
      · cases hd : p.pdata with
        | some d =>
          have hok : partOk p = true := by simp [partOk, hmt, hd, hmem]
          simp only [extractFromParts, hmt, if_pos hmem, hd, List.find?_cons, hok]
          rfl
        | none =>
          have hok : partOk p = false := by simp [partOk, hmt, hd]
          simp only [extractFromParts, hmt, if_pos hmem, hd, List.find?_cons, hok]
          exact ih
      · have hok : partOk p = false := by simp [partOk, hmt, hmem]
        simp only [extractFromParts, hmt, if_neg hmem, List.find?_cons, hok]
        exact ih

/-- C8 counterexample: with a `text/html` part carrying data placed before a
`text/plain` part carrying data, `_extract_body` returns the decoded html
part (`"H"`), not the decoded `text/plain` part (`"P"`): the extraction does
not prefer `text/plain` when the parts come in the other order. -/
theorem extract_body_html_first :
    extract_body (Payload.mk (some "multipart/alternative") none
        (some [MsgPart.mk (some "text/html") (some "SA==".data),
               MsgPart.mk (some "text/plain") (some "UA==".data)])) =
      Except.ok "H".data ∧
    decode_base64 "UA==".data = Except.ok "P".data ∧
    "H".data ≠ "P".data := by
  refine ⟨by rfl, by rfl, by decide⟩

/-- C8 as amended: `_extract_body` on a multipart payload returns the decoded
data of the first part in list order whose mime type is `text/plain` or
`text/html` and whose body has data (so `text/plain` is preferred exactly
when it precedes the html part), and the UTF-8 decoding of the payload drops
invalid byte sequences instead of failing. -/
theorem extract_body_first_acceptable_part :
    (∀ mt pd parts, extract_body (Payload.mk mt pd (some parts)) =
      match parts.find? partOk with
      | some p => decode_base64 (p.pdata.getD [])
      | none => Except.ok []) ∧
    extract_body (Payload.mk (some "multipart/alternative") none
        (some [MsgPart.mk (some "text/plain") (some "UA==".data),
               MsgPart.mk (some "text/html") (some "SA==".data)])) =
      Except.ok "P".data ∧
    utf8DecodeIgnore [72, 255, 105] = "Hi".data := by
  refine ⟨fun mt pd parts => ?_, by rfl, by decide⟩
  show extractFromParts parts = _
  exact extractFromParts_eq_find parts

/-! Classification label mapping (C7). -/

theorem litPref_of_append {a b u : List Char}
    (h : litPref (a ++ b) u = true) : litPref a u = true := by
  induction a generalizing u with
  | nil => rfl
  | cons c a ih =>
    cases u with
    | nil => simp [litPref] at h
    | cons d u =>
      simp only [List.cons_append, litPref, Bool.and_eq_true] at h ⊢
      exact ⟨h.1, ih h.2⟩

theorem subStr_of_append {a b u : List Char}
    (h : subStr (a ++ b) u = true) : subStr a u = true := by
  induction u with
  | nil =>
    simp only [subStr] at h ⊢
    cases a with
    | nil => rfl
    | cons c a =>
      cases b with
      | nil => simpa using h
      | cons d b => simp [litPref] at h
  | cons c u ih =>
    simp only [subStr, Bool.or_eq_true] at h ⊢
    rcases h with h | h
    · exact Or.inl (litPref_of_append h)
    · exact Or.inr (ih h)

theorem map_classification_ne_unknown (x : List Char) :
    map_classification x ≠ "Unknown".data := by
  unfold map_classification
  split
  · next hmem =>
    simp only [validCategories, List.mem_cons, List.not_mem_nil, or_false] at hmem
    rcases hmem with rfl | rfl | rfl | rfl <;> decide
  · split
    · decide
    · split
      · decide
      · split
        · decide
        · decide

theorem map_classification_eq_spec (r : List Char) :
    map_classification r = map_classification_spec r := by
  have hb : (subStr "informational".data (lowerStr r) ||
      subStr "info".data (lowerStr r)) = subStr "info".data (lowerStr r) := by
    cases h : subStr "info".data (lowerStr r) with
    | true => simp
    | false =>
      simp only [Bool.or_false]
      cases h2 : subStr "informational".data (lowerStr r) with
      | false => rfl
      | true =>
        have : subStr "info".data (lowerStr r) = true := by
          have he : "info".data ++ "rmational".data = "informational".data := by decide
          exact subStr_of_append (he ▸ h2)
        rw [h] at this
        exact absurd this (by simp)
  unfold map_classification map_classification_spec
  rw [hb]

/-- C7: the classifier maps the raw response by exact match against the four
valid labels, then case-insensitive substring heuristics in the fixed
priority order (informational/info, then promotional/marketing, then
personal/work/correspondence), defaulting to `Other`; the result is `Unknown`
exactly when the call raises; `"This looks informational to me"` maps to
`Informational` and an empty response maps to `Other`. -/
theorem classify_email_label_mapping :
    (∀ e : Unit, classify_email (Except.error e) = "Unknown".data) ∧
    (∀ c, classify_email (Except.ok c) ≠ "Unknown".data) ∧
    classify_email (Except.ok (some "This looks informational to me".data)) =
      "Informational".data ∧
    classify_email (Except.ok (some [])) = "Other".data ∧
    classify_email (Except.ok none) = "Other".data ∧
    (∀ r, map_classification r = map_classification_spec r) := by
  refine ⟨fun _ => rfl, fun c => ?_, by decide, by decide, by decide,
    map_classification_eq_spec⟩
  show map_classification _ ≠ _
  exact map_classification_ne_unknown _


/-! Classification batch frame property (C9). -/

theorem set_append_length (st : List Dict) (d x : Dict) :
    (st ++ [d]).set st.length x = st ++ [x] := by
  induction st with
  | nil => rfl
  | cons c st ih => simp [List.set, ih]

theorem classifyGo_spec (resp : Dict → Except Unit (Option (List Char))) :
    ∀ refs : List Nat, ∀ st : List Dict, (∀ r ∈ refs, r < st.length) →
      (∀ i, i < st.length →
        (classifyGo resp st refs).1.get? i = st.get? i) ∧
      (∀ ρ ∈ (classifyGo resp st refs).2, st.length ≤ ρ) ∧
      (classifyGo resp st refs).2.length = refs.length ∧
      (∀ j, j < refs.length →
        (classifyGo resp st refs).1.get? ((classifyGo resp st refs).2.getD j 0) =
          some (dictSet "classification"
            (classify_email (resp (st.getD (refs.getD j 0) [])))
            (st.getD (refs.getD j 0) []))) := by
  intro refs
  induction refs with
  | nil =>
    intro st _
    refine ⟨fun i _ => rfl, by simp [classifyGo], by simp [classifyGo], ?_⟩
    intro j hj
    exact absurd hj (by simp)
  | cons r rs ih =>
    intro st href
    have hd : classifyGo resp st (r :: rs) =
        ((classifyGo resp (st ++ [dictSet "classification"
            (classify_email (resp (st.getD r [])))
            (st.getD r [])]) rs).1,
          st.length :: (classifyGo resp (st ++ [dictSet "classification"
            (classify_email (resp (st.getD r [])))
            (st.getD r [])]) rs).2) := by
      simp only [classifyGo, set_append_length]
    set dd := dictSet "classification"
      (classify_email (resp (st.getD r []))) (st.getD r []) with hdd
    have hlen2 : (st ++ [dd]).length = st.length + 1 := by simp
    have hih := ih (st ++ [dd]) (by
      intro r2 hr2
      have := href r2 (List.mem_cons_of_mem _ hr2)
      omega)
    refine ⟨?_, ?_, ?_, ?_⟩
    · intro i hi
      rw [hd]
      have h1 := hih.1 i (by omega)
      rw [h1]
      exact List.get?_append hi
    · intro ρ hρ
      rw [hd] at hρ
      rcases List.mem_cons.mp hρ with rfl | hρ
      · exact Nat.le_refl _
      · have := hih.2.1 ρ hρ
        omega
    · rw [hd]
      simp only [List.length_cons, hih.2.2.1]
    · intro j hj
      rw [hd]
      cases j with
      | zero =>
        show (classifyGo resp (st ++ [dd]) rs).1.get? st.length = _
        have h1 := hih.1 st.length (by omega)
        rw [h1]
        show (st ++ [dd]).get? st.length = _
        rw [List.get?_concat_length]
        rfl
      | succ j =>
        have hj2 : j < rs.length := by simpa using hj
        have h4 := hih.2.2.2 j hj2
        show (classifyGo resp (st ++ [dd]) rs).1.get?
            ((classifyGo resp (st ++ [dd]) rs).2.getD j 0) = _
        rw [h4]
        have hmem : rs.getD j 0 ∈ rs := by
          rw [List.getD_eq_getD_get?, List.get?_eq_get hj2]
          exact List.get_mem rs j hj2
        have hlt : rs.getD j 0 < st.length := href _ (List.mem_cons_of_mem _ hmem)
        have hgd : ∀ k, k < st.length → (st ++ [dd]).getD k [] = st.getD k [] := by
          intro k hk
          rw [List.getD_eq_getD_get?, List.getD_eq_getD_get?, List.get?_append hk]
        rw [hgd _ hlt]
        rfl

theorem classify_emails_st_eq_go (resp : Dict → Except Unit (Option (List Char)))
    (st : List Dict) (refs : List Nat) :
    classify_emails_st resp st refs = classifyGo resp st refs := by
  cases refs with
  | nil => rfl
  | cons r rs => simp [classify_emails_st, classifyGo]

/-- C9: the classification step leaves every input record unchanged and
returns fresh records: under a store of dictionaries addressed by
references, `classify_emails` keeps every pre-existing slot intact, the
returned references all point past the original store, there is one output
per input, and each output slot holds a copy of the corresponding input
dictionary with the classification label attached. -/
theorem classify_emails_no_mutation
    (resp : Dict → Except Unit (Option (List Char)))
    (st : List Dict) (refs : List Nat)
    (href : ∀ r ∈ refs, r < st.length) :
    (∀ i, i < st.length →
      (classify_emails_st resp st refs).1.get? i = st.get? i) ∧
    (∀ ρ ∈ (classify_emails_st resp st refs).2, st.length ≤ ρ) ∧
    (classify_emails_st resp st refs).2.length = refs.length ∧
    (∀ j, j < refs.length →
      (classify_emails_st resp st refs).1.get?
          ((classify_emails_st resp st refs).2.getD j 0) =
        some (dictSet "classification"
          (classify_email (resp (st.getD (refs.getD j 0) [])))
          (st.getD (refs.getD j 0) []))) := by
  rw [classify_emails_st_eq_go]
  exact classifyGo_spec resp refs st href

/-- Witness for C9 at a concrete one-record store. -/
theorem classify_emails_no_mutation_witness :
    (∀ i, i < stW.length →
      (classify_emails_st respW stW refsW).1.get? i = stW.get? i) ∧
    (∀ ρ ∈ (classify_emails_st respW stW refsW).2, stW.length ≤ ρ) ∧
    (classify_emails_st respW stW refsW).2.length = refsW.length ∧
    (∀ j, j < refsW.length →
      (classify_emails_st respW stW refsW).1.get?
          ((classify_emails_st respW stW refsW).2.getD j 0) =
        some (dictSet "classification"
          (classify_email (respW (stW.getD (refsW.getD j 0) [])))
          (stW.getD (refsW.getD j 0) []))) :=
  classify_emails_no_mutation respW stW refsW (by decide)


/-! Legacy CSS catalogue behaviour (C6). -/

/-- C6 counterexample: the catalogued properties `color`, `margin` and
`font-family` have no end-of-string pattern in the `incomplete_css` list, so
their declarations without a trailing semicolon survive `clean_css`
unchanged: end-of-string is not an accepted terminator for them. -/
theorem clean_css_no_eos_for_color_margin_font_family :
    clean_css "color: red".data = "color: red".data ∧
    clean_css "margin: 0".data = "margin: 0".data ∧
    clean_css "font-family: Arial".data = "font-family: Arial".data := by
  exact ⟨by decide, by decide, by decide⟩

/-- C6 as amended: `clean_css` removes each catalogued `name: value;`
declaration when it is terminated by a semicolon (except that the
overlapping catalogue names `background-color`, `line-height` and
`-ms-word-break` are partially consumed by an earlier shorter entry, leaving
the stray prefixes `background-`, `line-` and `-ms-`); end-of-string is an
accepted terminator only for the properties of the `incomplete_css` list,
which omits `color`, `margin`, `font-family`, `background-color` and
`padding`, so such declarations without a semicolon survive unchanged. -/
theorem clean_css_catalogue_behaviour :
    clean_css "font-family: x;".data = [] ∧
    clean_css "color: x;".data = [] ∧
    clean_css "background-color: x;".data = "background-".data ∧
    clean_css "background: x;".data = [] ∧
    clean_css "padding: x;".data = [] ∧
    clean_css "margin: x;".data = [] ∧
    clean_css "border: x;".data = [] ∧
    clean_css "width: x;".data = [] ∧
    clean_css "height: x;".data = [] ∧
    clean_css "display: x;".data = [] ∧
    clean_css "position: x;".data = [] ∧
    clean_css "float: x;".data = [] ∧
    clean_css "clear: x;".data = [] ∧
    clean_css "overflow: x;".data = [] ∧
    clean_css "text-align: x;".data = [] ∧
    clean_css "line-height: x;".data = "line-".data ∧
    clean_css "font-size: x;".data = [] ∧
    clean_css "font-weight: x;".data = [] ∧
    clean_css "text-decoration: x;".data = [] ∧
    clean_css "outline: x;".data = [] ∧
    clean_css "border-collapse: x;".data = [] ∧
    clean_css "table-layout: x;".data = [] ∧
    clean_css "overflow-wrap: x;".data = [] ∧
    clean_css "word-wrap: x;".data = [] ∧
    clean_css "word-break: x;".data = [] ∧
    clean_css "-webkit-text-size-adjust: x;".data = [] ∧
    clean_css "-ms-word-break: x;".data = "-ms-".data ∧
    clean_css "src: x;".data = [] ∧
    clean_css "format: x;".data = [] ∧
    clean_css "font-style: x;".data = [] ∧
    clean_css "!important;".data = [] ∧
    clean_css "line-height: x".data = [] ∧
    clean_css "background: x".data = [] ∧
    clean_css "border: x".data = [] ∧
    clean_css "width: x".data = [] ∧
    clean_css "height: x".data = [] ∧
    clean_css "display: x".data = [] ∧
    clean_css "position: x".data = [] ∧
    clean_css "float: x".data = [] ∧
    clean_css "clear: x".data = [] ∧
    clean_css "overflow: x".data = [] ∧
    clean_css "text-align: x".data = [] ∧
    clean_css "font-size: x".data = [] ∧
    clean_css "font-weight: x".data = [] ∧
    clean_css "text-decoration: x".data = [] ∧
    clean_css "outline: x".data = [] ∧
    clean_css "border-collapse: x".data = [] ∧
    clean_css "table-layout: x".data = [] ∧
    clean_css "overflow-wrap: x".data = [] ∧
    clean_css "word-wrap: x".data = [] ∧
    clean_css "word-break: x".data = [] ∧
    clean_css "-webkit-text-size-adjust: x".data = [] ∧
    clean_css "-ms-word-break: x".data = "-ms-".data ∧
    clean_css "src: x".data = [] ∧
    clean_css "format: x".data = [] ∧
    clean_css "font-style: x".data = [] ∧
    clean_css "color: x".data = "color: x".data ∧
    clean_css "margin: x".data = "margin: x".data ∧
    clean_css "font-family: x".data = "font-family: x".data ∧
    clean_css "background-color: x".data = "background-color: x".data ∧
    clean_css "padding: x".data = "padding: x".data :=
  ⟨by rfl, by decide, by rfl, by decide, by rfl, by decide, by rfl, by decide, by rfl, by decide, by rfl, by decide, by rfl, by decide, by rfl, by decide, by rfl, by decide, by rfl, by decide, by rfl, by decide, by rfl, by decide, by rfl, by decide, by rfl, by decide, by rfl, by decide, by rfl, by decide, by rfl, by decide, by rfl, by decide, by rfl, by decide, by rfl, by decide, by rfl, by decide, by rfl, by decide, by rfl, by decide, by rfl, by decide, by rfl, by decide, by rfl, by decide, by rfl, by decide, by rfl, by decide, by rfl, by decide, by rfl, by decide, by rfl⟩


/-! Invisible-character removal of the `to_text` normalizer (C2,
spec-modelled). -/

/-- C2 (spec-modelled): the `to_text` invisible-character stage removes every
code point the category test marks (general category C) except newline,
carriage return and horizontal tab, which it preserves for the whitespace
pass; a body with a zero-width space between two words normalizes to the two
words separated by exactly one space. -/
theorem to_text_removes_invisible (catC : Char → Bool)
    (h1 : catC '\u200B' = true)
    (h2 : ∀ c ∈ "helo wrd".data, catC c = false) :
    (∀ s, ∀ c ∈ removeOtherCat catC s,
      catC c = false ∨ c ∈ (['\n', '\r', '\t'] : List Char)) ∧
    (∀ s, ∀ c ∈ (['\n', '\r', '\t'] : List Char), c ∈ s →
      c ∈ removeOtherCat catC s) ∧
    to_text_model catC ("hello ".data ++ '\u200B' :: " world".data) =
      "hello world".data := by
  refine ⟨?_, ?_, ?_⟩
  · intro s c hc
    have hp := (List.mem_filter.mp hc).2
    by_cases h : catC c
    · right
      rw [h] at hp
      simp only [Bool.not_true, Bool.false_or, Bool.or_eq_true,
        decide_eq_true_eq] at hp
      rcases hp with (hp | hp) | hp <;> simp [hp]
    · left
      simpa using h
  · intro s c hc hs
    refine List.mem_filter.mpr ⟨hs, ?_⟩
    simp only [List.mem_cons, List.not_mem_nil, or_false] at hc
    rcases hc with rfl | rfl | rfl <;> simp
  · have hk : ∀ c, catC c = false →
        (!catC c || c = '\n' || c = '\r' || c = '\t') = true := by
      intro c hc
      rw [hc]
      simp
    have hz : (!catC '\u200B' || '\u200B' = '\n' || '\u200B' = '\r' ||
        '\u200B' = '\t') = false := by
      rw [h1]
      decide
    have e1 : removeOtherCat catC ("hello ".data ++ '\u200B' :: " world".data) =
        "hello  world".data := by
      show List.filter _ ('h' :: 'e' :: 'l' :: 'l' :: 'o' :: ' ' :: '\u200B' ::
        ' ' :: 'w' :: 'o' :: 'r' :: 'l' :: 'd' :: []) = _
      simp only [List.filter, hk 'h' (h2 'h' (by decide)), hk 'e' (h2 'e' (by decide)),
        hk 'l' (h2 'l' (by decide)), hk 'o' (h2 'o' (by decide)),
        hk ' ' (h2 ' ' (by decide)), hk 'w' (h2 'w' (by decide)),
        hk 'r' (h2 'r' (by decide)), hk 'd' (h2 'd' (by decide)), hz]
    rw [to_text_model, e1]
    decide

/-- Witness for C2 with the category test that marks exactly the zero-width
space. -/
theorem to_text_removes_invisible_witness :
    (∀ s, ∀ c ∈ removeOtherCat (fun c => c == '\u200B') s,
      (fun c => c == '\u200B') c = false ∨ c ∈ (['\n', '\r', '\t'] : List Char)) ∧
    (∀ s, ∀ c ∈ (['\n', '\r', '\t'] : List Char), c ∈ s →
      c ∈ removeOtherCat (fun c => c == '\u200B') s) ∧
    to_text_model (fun c => c == '\u200B')
        ("hello ".data ++ '\u200B' :: " world".data) =
      "hello world".data :=
  to_text_removes_invisible (fun c => c == '\u200B') (by decide)
    (by decide)


/-! Whitespace collapse: the regex pass and the split/join rule agree. -/

theorem drop_length_takeWhile (p : Char → Bool) (l : List Char) :
    l.drop (l.takeWhile p).length = l.dropWhile p := by
  induction l with
  | nil => rfl
  | cons c cs ih =>
    by_cases h : p c
    · simp [List.takeWhile_cons, List.dropWhile_cons, h, ih]
    · simp [List.takeWhile_cons, List.dropWhile_cons, h]

theorem dropWhile_head_false (p : Char → Bool) (l : List Char) (d : Char)
    (t : List Char) (h : l.dropWhile p = d :: t) : p d = false := by
  induction l with
  | nil => simp at h
  | cons c cs ih =>
    by_cases hc : p c
    · rw [List.dropWhile_cons_of_pos hc] at h
      exact ih h
    · rw [List.dropWhile_cons_of_neg hc] at h
      cases h
      simpa using hc

theorem wordsF_fuel : ∀ f₁ : Nat, ∀ s : List Char, ∀ f₂ : Nat,
    s.length ≤ f₁ → s.length ≤ f₂ → wordsF f₁ s = wordsF f₂ s := by
  intro f₁
  induction f₁ with
  | zero =>
    intro s f₂ h₁ _
    have hs : s = [] := List.length_eq_zero.mp (Nat.le_zero.mp h₁)
    subst hs
    cases f₂ <;> rfl
  | succ f ih =>
    intro s f₂ h₁ h₂
    cases s with
    | nil => cases f₂ <;> rfl
    | cons c cs =>
      cases f₂ with
      | zero => exact absurd h₂ (by simp)
      | succ f₂ =>
        simp only [List.length_cons] at h₁ h₂
        by_cases h : pyWs c
        · simp only [wordsF, h, if_pos]
          exact ih cs f₂ (by omega) (by omega)
        · simp only [wordsF, h, if_neg, Bool.false_eq_true, not_false_eq_true]
          have hd : (cs.dropWhile (fun d => !pyWs d)).length ≤ cs.length :=
            (List.dropWhile_sublist _).length_le
          rw [ih (cs.dropWhile (fun d => !pyWs d)) f₂ (by omega) (by omega)]

theorem pySplit_ws {c : Char} (cs : List Char) (h : pyWs c = true) :
    pySplit (c :: cs) = pySplit cs := by
  simp [pySplit, wordsF, h]

theorem pySplit_word {c : Char} (cs : List Char) (h : pyWs c = false) :
    pySplit (c :: cs) = (c :: cs.takeWhile (fun d => !pyWs d)) ::
      pySplit (cs.dropWhile (fun d => !pyWs d)) := by
  have hd : (cs.dropWhile (fun d => !pyWs d)).length ≤ cs.length :=
    (List.dropWhile_sublist _).length_le
  simp only [pySplit, List.length_cons, wordsF, h, Bool.false_eq_true, if_false]
  rw [wordsF_fuel cs.length (cs.dropWhile (fun d => !pyWs d))
    (cs.dropWhile (fun d => !pyWs d)).length (by omega) (Nat.le_refl _)]

theorem pySplit_dropWhile (t : List Char) :
    pySplit (t.dropWhile pyWs) = pySplit t := by
  induction t with
  | nil => rfl
  | cons c cs ih =>
    by_cases h : pyWs c
    · rw [List.dropWhile_cons_of_pos h, ih, pySplit_ws cs h]
    · rw [List.dropWhile_cons_of_neg h]

theorem joinSp_cons_cons (w x : List Char) (t : List (List Char)) :
    joinSp (w :: x :: t) = w ++ ' ' :: joinSp (x :: t) := rfl

theorem joinSp_ne_nil (w : List Char) (t : List (List Char)) (hw : w ≠ []) :
    joinSp (w :: t) ≠ [] := by
  cases t with
  | nil => simpa [joinSp]
  | cons x t => simp [joinSp_cons_cons, hw]

theorem subst_ws_run {c : Char} (cs : List Char) (h : pyWs c = true) :
    subst wsM [' '] (c :: cs) = ' ' :: subst wsM [' '] (cs.dropWhile pyWs) := by
  have hm : wsM (c :: cs) = some ((cs.takeWhile pyWs).length + 1) := by
    simp [wsM, h]
  rw [subst_cons_some hm]
  simp only [Nat.add_sub_cancel, drop_length_takeWhile]
  rfl

theorem subst_ws_keep {c : Char} (cs : List Char) (h : pyWs c = false) :
    subst wsM [' '] (c :: cs) = c :: subst wsM [' '] cs := by
  have hm : wsM (c :: cs) = none := by simp [wsM, h]
  exact subst_cons_none hm

theorem subst_ws_word (w t : List Char) (hw : ∀ x ∈ w, pyWs x = false) :
    subst wsM [' '] (w ++ t) = w ++ subst wsM [' '] t := by
  induction w with
  | nil => rfl
  | cons c w ih =>
    rw [List.cons_append, subst_ws_keep _ (hw c (List.mem_cons_self _ _)),
      ih (fun x hx => hw x (List.mem_cons_of_mem _ hx)), List.cons_append]

theorem ltrim_ws {c : Char} (t : List Char) (h : pyWs c = true) :
    ltrim (c :: t) = ltrim t := List.dropWhile_cons_of_pos h

theorem ltrim_keep {c : Char} (t : List Char) (h : pyWs c = false) :
    ltrim (c :: t) = c :: t := List.dropWhile_cons_of_neg (by simp [h])

theorem dropWhile_append_all (p : Char → Bool) (a b : List Char)
    (ha : ∀ x ∈ a, p x = true) : (a ++ b).dropWhile p = b.dropWhile p := by
  induction a with
  | nil => rfl
  | cons c a ih =>
    rw [List.cons_append, List.dropWhile_cons_of_pos (ha c (List.mem_cons_self _ _))]
    exact ih (fun x hx => ha x (List.mem_cons_of_mem _ hx))

theorem dropWhile_append_stop (p : Char → Bool) (a b : List Char)
    (ha : a.dropWhile p ≠ []) : (a ++ b).dropWhile p = a.dropWhile p ++ b := by
  induction a with
  | nil => simp at ha
  | cons c a ih =>
    by_cases h : p c
    · rw [List.cons_append, List.dropWhile_cons_of_pos h,
        List.dropWhile_cons_of_pos h]
      rw [List.dropWhile_cons_of_pos h] at ha
      exact ih ha
    · rw [List.cons_append, List.dropWhile_cons_of_neg h,
        List.dropWhile_cons_of_neg h]
      rfl

theorem dropWhile_eq_nil_all (p : Char → Bool) (l : List Char)
    (h : l.dropWhile p = []) : ∀ x ∈ l, p x = true := by
  induction l with
  | nil => intro x hx; simp at hx
  | cons c cs ih =>
    by_cases hc : p c
    · rw [List.dropWhile_cons_of_pos hc] at h
      intro x hx
      rcases List.mem_cons.mp hx with rfl | hx
      · exact hc
      · exact ih h x hx
    · rw [List.dropWhile_cons_of_neg hc] at h
      simp at h

theorem rtrim_append (a b : List Char) :
    rtrim (a ++ b) = if rtrim b = [] then rtrim a else a ++ rtrim b := by
  by_cases hb : rtrim b = []
  · rw [if_pos hb]
    have hnil : b.reverse.dropWhile pyWs = [] := by
      have h2 := congrArg List.reverse hb
      simpa [rtrim] using h2
    have hall : ∀ x ∈ b.reverse, pyWs x = true := dropWhile_eq_nil_all _ _ hnil
    rw [rtrim, List.reverse_append, dropWhile_append_all _ _ _ hall]
    rfl
  · rw [if_neg hb]
    have hne : b.reverse.dropWhile pyWs ≠ [] := by
      intro hcon
      apply hb
      rw [rtrim, hcon]
      rfl
    rw [rtrim, List.reverse_append, dropWhile_append_stop _ _ _ hne,
      List.reverse_append, List.reverse_reverse]
    rfl

theorem rtrim_ws_free (t : List Char) (h : ∀ x ∈ t, pyWs x = false) :
    rtrim t = t := by
  rw [rtrim]
  cases hr : t.reverse with
  | nil =>
    have : t = [] := by simpa using congrArg List.reverse hr
    simp [this]
  | cons c r =>
    have hc : pyWs c = false := by
      refine h c ?_
      have : c ∈ t.reverse := by rw [hr]; exact List.mem_cons_self _ _
      simpa using this
    rw [List.dropWhile_cons_of_neg (by simp [hc]), ← hr, List.reverse_reverse]

theorem rtrim_cons_space (z : List Char) :
    rtrim (' ' :: z) = if rtrim z = [] then [] else ' ' :: rtrim z := by
  have h0 : rtrim [' '] = [] := by decide
  have h1 := rtrim_append [' '] z
  simp only [List.singleton_append, h0] at h1
  rw [h1]

theorem collapse_agree : ∀ s : List Char,
    pyStrip (subst wsM [' '] s) = joinSp (pySplit s) := by
  have key : ∀ n : Nat, ∀ s : List Char, s.length ≤ n →
      pyStrip (subst wsM [' '] s) = joinSp (pySplit s) := by
    intro n
    induction n with
    | zero =>
      intro s hs
      have h0 : s = [] := List.length_eq_zero.mp (Nat.le_zero.mp hs)
      subst h0
      rfl
    | succ n ih =>
      intro s hs
      cases s with
      | nil => rfl
      | cons c cs =>
        simp only [List.length_cons] at hs
        by_cases hc : pyWs c
        · rw [subst_ws_run cs hc, pySplit_ws cs hc, ← pySplit_dropWhile cs]
          have hlen : (cs.dropWhile pyWs).length ≤ n :=
            le_trans (List.dropWhile_sublist pyWs).length_le (by omega)
          have h2 : pyStrip (' ' :: subst wsM [' '] (cs.dropWhile pyWs)) =
              pyStrip (subst wsM [' '] (cs.dropWhile pyWs)) := by
            rw [pyStrip, pyStrip, ltrim_ws _ (by decide)]
          rw [h2]
          exact ih _ hlen
        · have hcf : pyWs c = false := by simpa using hc
          rw [pySplit_word cs hcf]
          have hwfree : ∀ x ∈ c :: cs.takeWhile (fun d => !pyWs d),
              pyWs x = false := by
            intro x hx
            rcases List.mem_cons.mp hx with rfl | hx
            · exact hcf
            · have := List.mem_takeWhile_imp hx
              simpa using this
          have hsplit : c :: cs =
              (c :: cs.takeWhile (fun d => !pyWs d)) ++
                cs.dropWhile (fun d => !pyWs d) := by
            rw [List.cons_append, List.takeWhile_append_dropWhile]
          rw [hsplit, subst_ws_word _ _ hwfree]
          have hltr : ∀ X : List Char,
              pyStrip ((c :: cs.takeWhile (fun d => !pyWs d)) ++ X) =
                rtrim ((c :: cs.takeWhile (fun d => !pyWs d)) ++ X) := by
            intro X
            rw [pyStrip, List.cons_append, ltrim_keep _ hcf, ← List.cons_append]
          rw [hltr]
          cases hr : cs.dropWhile (fun d => !pyWs d) with
          | nil =>
            show rtrim ((c :: cs.takeWhile (fun d => !pyWs d)) ++
              subst wsM [' '] []) = _
            rw [subst_nil, List.append_nil, rtrim_ws_free _ hwfree]
            rfl
          | cons d rest2 =>
            have hd : pyWs d = true := by
              have := dropWhile_head_false (fun d => !pyWs d) cs d rest2 hr
              simpa using this
            rw [subst_ws_run rest2 hd]
            have hsp2 : pySplit (d :: rest2) = pySplit (rest2.dropWhile pyWs) := by
              rw [pySplit_ws rest2 hd, pySplit_dropWhile]
            rw [hsp2]
            have hlen2 : (rest2.dropWhile pyWs).length ≤ n := by
              have l1 : (rest2.dropWhile pyWs).length ≤ rest2.length :=
                (List.dropWhile_sublist pyWs).length_le
              have l2 : (cs.dropWhile (fun d => !pyWs d)).length ≤ cs.length :=
                (List.dropWhile_sublist _).length_le
              rw [hr] at l2
              simp only [List.length_cons] at l2
              omega
            cases hr2 : rest2.dropWhile pyWs with
            | nil =>
              show rtrim ((c :: cs.takeWhile (fun d => !pyWs d)) ++
                (' ' :: subst wsM [' '] [])) = _
              rw [subst_nil]
              rw [rtrim_append]
              have : rtrim [' '] = [] := by decide
              rw [this, if_pos rfl, rtrim_ws_free _ hwfree]
              rfl
            | cons e r2 =>
              have he : pyWs e = false := dropWhile_head_false pyWs rest2 e r2 hr2
              have hih := ih (e :: r2) (by rw [← hr2]; exact hlen2)
              have hkeep : subst wsM [' '] (e :: r2) = e :: subst wsM [' '] r2 :=
                subst_ws_keep r2 he
              have hstrip2 : rtrim (subst wsM [' '] (e :: r2)) =
                  joinSp (pySplit (e :: r2)) := by
                rw [← hih, pyStrip, hkeep, ltrim_keep _ he, ← hkeep]
              have hword2 : pySplit (e :: r2) =
                  (e :: r2.takeWhile (fun d => !pyWs d)) ::
                    pySplit (r2.dropWhile (fun d => !pyWs d)) := pySplit_word r2 he
              have hnn : joinSp (pySplit (e :: r2)) ≠ [] := by
                rw [hword2]
                exact joinSp_ne_nil _ _ (by simp)
              have hrt : rtrim (' ' :: subst wsM [' '] (e :: r2)) =
                  ' ' :: joinSp (pySplit (e :: r2)) := by
                rw [rtrim_cons_space, hstrip2, if_neg hnn]
              rw [rtrim_append, hrt, if_neg (by simp), hword2, joinSp_cons_cons]
  intro s
  exact key s.length s (Nat.le_refl _)


theorem takeWhile_append_all (p : Char → Bool) (a b : List Char)
    (ha : ∀ x ∈ a, p x = true) : (a ++ b).takeWhile p = a ++ b.takeWhile p := by
  induction a with
  | nil => rfl
  | cons c a ih =>
    rw [List.cons_append, List.takeWhile_cons_of_pos (ha c (List.mem_cons_self _ _)),
      ih (fun x hx => ha x (List.mem_cons_of_mem _ hx)), List.cons_append]

theorem pySplit_words : ∀ s : List Char, ∀ w ∈ pySplit s,
    w ≠ [] ∧ ∀ c ∈ w, pyWs c = false := by
  have key : ∀ n : Nat, ∀ s : List Char, s.length ≤ n → ∀ w ∈ pySplit s,
      w ≠ [] ∧ ∀ c ∈ w, pyWs c = false := by
    intro n
    induction n with
    | zero =>
      intro s hs
      have h0 : s = [] := List.length_eq_zero.mp (Nat.le_zero.mp hs)
      subst h0
      intro w hw
      simp [pySplit, wordsF] at hw
    | succ n ih =>
      intro s hs
      cases s with
      | nil => intro w hw; simp [pySplit, wordsF] at hw
      | cons c cs =>
        simp only [List.length_cons] at hs
        by_cases hc : pyWs c
        · rw [pySplit_ws cs hc]
          exact ih cs (by omega)
        · have hcf : pyWs c = false := by simpa using hc
          rw [pySplit_word cs hcf]
          intro w hw
          rcases List.mem_cons.mp hw with rfl | hw
          · refine ⟨by simp, ?_⟩
            intro x hx
            rcases List.mem_cons.mp hx with rfl | hx
            · exact hcf
            · have := List.mem_takeWhile_imp hx
              simpa using this
          · have hlen : (cs.dropWhile (fun d => !pyWs d)).length ≤ n :=
              le_trans (List.dropWhile_sublist _).length_le (by omega)
            exact ih _ hlen w hw
  exact fun s => key s.length s (Nat.le_refl _)

theorem pySplit_word_append (w t : List Char) (hw : w ≠ [])
    (hfree : ∀ c ∈ w, pyWs c = false)
    (ht : t = [] ∨ ∃ d t', t = d :: t' ∧ pyWs d = true) :
    pySplit (w ++ t) = w :: pySplit t := by
  cases w with
  | nil => exact absurd rfl hw
  | cons c w' =>
    have hcf : pyWs c = false := hfree c (List.mem_cons_self _ _)
    have hfree' : ∀ x ∈ w', (fun d => !pyWs d) x = true := by
      intro x hx
      simp [hfree x (List.mem_cons_of_mem _ hx)]
    have htake : t.takeWhile (fun d => !pyWs d) = [] := by
      rcases ht with rfl | ⟨d, t', rfl, hd⟩
      · rfl
      · exact List.takeWhile_cons_of_neg (by simp [hd])
    have hdropt : t.dropWhile (fun d => !pyWs d) = t := by
      rcases ht with rfl | ⟨d, t', rfl, hd⟩
      · rfl
      · exact List.dropWhile_cons_of_neg (by simp [hd])
    rw [List.cons_append, pySplit_word _ hcf,
      takeWhile_append_all _ _ _ hfree', dropWhile_append_all _ _ _ hfree',
      htake, hdropt, List.append_nil]

theorem pySplit_joinSp : ∀ L : List (List Char),
    (∀ w ∈ L, w ≠ [] ∧ ∀ c ∈ w, pyWs c = false) →
    pySplit (joinSp L) = L := by
  intro L
  induction L with
  | nil => intro _; rfl
  | cons w rest ih =>
    intro hL
    have hw := hL w (List.mem_cons_self _ _)
    cases rest with
    | nil =>
      have h := pySplit_word_append w [] hw.1 hw.2 (Or.inl rfl)
      simpa [joinSp] using h
    | cons x rest' =>
      rw [joinSp_cons_cons]
      have h := pySplit_word_append w (' ' :: joinSp (x :: rest')) hw.1 hw.2
        (Or.inr ⟨' ', joinSp (x :: rest'), rfl, by decide⟩)
      rw [h, pySplit_ws _ (by decide),
        ih (fun v hv => hL v (List.mem_cons_of_mem _ hv))]

theorem strip_eq_stripSpec : ∀ s : List Char, strip s = stripSpec s := by
  intro s
  by_cases h : s = []
  · subst h; rfl
  · rw [strip, if_neg h, stripSpec, collapse_agree (joinSp (pySplit s)),
      pySplit_joinSp (pySplit s) (pySplit_words s)]

theorem stripSpec_idem (s : List Char) : stripSpec (stripSpec s) = stripSpec s := by
  rw [stripSpec, stripSpec, pySplit_joinSp _ (pySplit_words s)]

/-- C5: the whitespace-collapse stage `strip` equals the reference
definition — split on any whitespace run, discard empty fragments, rejoin
with single spaces (which also trims the ends) — and the pipeline sends the
markup-free body `"a\n\n  b\tc"` to exactly `"a b c"`. -/
theorem strip_matches_reference :
    (∀ s, strip s = stripSpec s) ∧
    clean_strip "a\n\n  b\tc".data = "a b c".data :=
  ⟨strip_eq_stripSpec, by decide⟩


/-! Absence of tag substrings: basic facts about `noTagB`. -/

theorem noTagB_cons_ne {c : Char} (cs : List Char) (h : c ≠ '<') :
    noTagB (c :: cs) = noTagB cs := by
  rw [noTagB.eq_def]
  simp [h]

theorem noTagB_lt_gt (r : List Char) : noTagB ('<' :: '>' :: r) = noTagB r := by
  rw [noTagB.eq_def]
  simp

theorem noTagB_lt_other {d : Char} (r : List Char) (h : d ≠ '>') :
    noTagB ('<' :: d :: r) = !(d :: r).contains '>' := by
  rw [noTagB.eq_def]
  simp [h]

theorem contains_gt_false (l : List Char) (h : ∀ x ∈ l, x ≠ '>') :
    l.contains '>' = false := by
  induction l with
  | nil => rfl
  | cons c cs ih =>
    have hc : (c == '>') = false := by
      simpa using h c (List.mem_cons_self _ _)
    have hbc : ('>' == c) = false := by
      cases hb : '>' == c
      · rfl
      · exfalso
        have : '>' = c := by simpa using hb
        simp [← this] at hc
    simp only [List.contains_cons, hbc, Bool.false_or]
    exact ih (fun x hx => h x (List.mem_cons_of_mem _ hx))

theorem not_mem_of_contains_gt_false (l : List Char)
    (h : l.contains '>' = false) : ∀ x ∈ l, x ≠ '>' := by
  intro x hx hxe
  subst hxe
  rw [List.contains_eq_any_beq] at h
  have : l.any (fun x => '>' == x) = true :=
    List.any_eq_true.mpr ⟨'>', hx, by simp⟩
  rw [this] at h
  cases h

theorem noGt_noTagB (t : List Char) (h : t.contains '>' = false) :
    noTagB t = true := by
  induction t with
  | nil => rfl
  | cons c cs ih =>
    have htail : cs.contains '>' = false := by
      have hall := not_mem_of_contains_gt_false _ h
      exact contains_gt_false _ (fun x hx => hall x (List.mem_cons_of_mem _ hx))
    by_cases hc : c = '<'
    · subst hc
      cases cs with
      | nil => rfl
      | cons d r =>
        have hd : d ≠ '>' := by
          exact not_mem_of_contains_gt_false _ h d
            (List.mem_cons_of_mem _ (List.mem_cons_self _ _))
        rw [noTagB_lt_other r hd, htail]
        rfl
    · rw [noTagB_cons_ne cs hc]
      exact ih htail

theorem noTagB_tail {c : Char} (cs : List Char) (h : noTagB (c :: cs) = true) :
    noTagB cs = true := by
  by_cases hc : c = '<'
  · subst hc
    cases cs with
    | nil => rfl
    | cons d r =>
      by_cases hd : d = '>'
      · subst hd
        rw [noTagB_lt_gt] at h
        rw [noTagB_cons_ne r (by decide)]
        exact h
      · rw [noTagB_lt_other r hd] at h
        exact noGt_noTagB _ (by simpa using h)
  · rw [noTagB_cons_ne cs hc] at h
    exact h

theorem noTagB_drop (t : List Char) (k : Nat) (h : noTagB t = true) :
    noTagB (t.drop k) = true := by
  induction k generalizing t with
  | zero => exact h
  | succ k ih =>
    cases t with
    | nil => exact h
    | cons c cs => exact ih cs (noTagB_tail cs h)

theorem noTagB_prepend (rep X : List Char) (hrep : ∀ x ∈ rep, x ≠ '<') :
    noTagB (rep ++ X) = noTagB X := by
  induction rep with
  | nil => rfl
  | cons c rep ih =>
    rw [List.cons_append, noTagB_cons_ne _ (hrep c (List.mem_cons_self _ _))]
    exact ih (fun x hx => hrep x (List.mem_cons_of_mem _ hx))

theorem takeWhile_full_all (p : Char → Bool) (l : List Char)
    (h : l.length ≤ (l.takeWhile p).length) : ∀ x ∈ l, p x = true := by
  induction l with
  | nil => intro x hx; simp at hx
  | cons c cs ih =>
    by_cases hc : p c
    · rw [List.takeWhile_cons_of_pos hc] at h
      simp only [List.length_cons] at h
      intro x hx
      rcases List.mem_cons.mp hx with rfl | hx
      · exact hc
      · exact ih (by omega) x hx
    · rw [List.takeWhile_cons_of_neg hc] at h
      simp at h

theorem tagM_lt (cs : List Char) :
    tagM ('<' :: cs) =
      if 1 ≤ (cs.takeWhile (fun d => d != '>')).length ∧
          (cs.takeWhile (fun d => d != '>')).length < cs.length then
        some ((cs.takeWhile (fun d => d != '>')).length + 2)
      else none := by
  rw [tagM.eq_def]
  simp

/-- The tag-removal substitution establishes the absence of tag
substrings. -/
theorem noTagB_subst_tagM : ∀ s : List Char, noTagB (subst tagM [] s) = true := by
  refine scanInd tagM (fun s => noTagB (subst tagM [] s) = true) rfl ?_ ?_
  · intro c cs n hm ih
    rw [subst_cons_some hm, List.nil_append]
    exact ih
  · intro c cs hm ih
    rw [subst_cons_none hm]
    by_cases hc : c = '<'
    · subst hc
      cases cs with
      | nil => rfl
      | cons d r =>
        by_cases hd : d = '>'
        · subst hd
          have hm2 : tagM ('>' :: r) = none := by simp [tagM]
          rw [subst_cons_none hm2] at ih ⊢
          rw [noTagB_lt_gt]
          rw [noTagB_cons_ne _ (by decide)] at ih
          exact ih
        · have hlen : (d :: r).length ≤ ((d :: r).takeWhile (fun x => x != '>')).length := by
            by_contra hcon
            push_neg at hcon
            have ht1 : 1 ≤ ((d :: r).takeWhile (fun x => x != '>')).length := by
              rw [List.takeWhile_cons_of_pos (by simpa using hd)]
              simp
            rw [tagM_lt, if_pos ⟨ht1, hcon⟩] at hm
            cases hm
          have hall := takeWhile_full_all _ _ hlen
          have hnomem : ∀ x ∈ (d :: r), x ≠ '>' := by
            intro x hx
            have := hall x hx
            simpa using this
          have hX : ∀ x ∈ subst tagM [] (d :: r), x ≠ '>' := by
            intro x hx
            rcases mem_subst hx with hx | hx
            · exact hnomem x hx
            · simp at hx
          cases hsub : subst tagM [] (d :: r) with
          | nil => rfl
          | cons e X =>
            have he : e ≠ '>' := by
              refine hX e ?_
              rw [hsub]
              exact List.mem_cons_self _ _
            rw [noTagB_lt_other X he]
            have : (e :: X).contains '>' = false := by
              refine contains_gt_false _ ?_
              intro x hx
              refine hX x ?_
              rw [hsub]
              exact hx
            rw [this]
            rfl
    · rw [noTagB_cons_ne _ hc]
      exact ih

/-- Any deleting or tag-free substitution whose matcher rejects strings
starting with `>` preserves the absence of tag substrings. -/
theorem noTagB_subst_pres (m : List Char → Option Nat) (rep : List Char)
    (hm : ∀ t, m ('>' :: t) = none)
    (hrep : ∀ x ∈ rep, x ≠ '<' ∧ x ≠ '>') :
    ∀ s : List Char, noTagB s = true → noTagB (subst m rep s) = true := by
  refine scanInd m
    (fun s => noTagB s = true → noTagB (subst m rep s) = true)
    (fun _ => rfl) ?_ ?_
  · intro c cs n hmm ih h
    rw [subst_cons_some hmm,
      noTagB_prepend rep _ (fun x hx => (hrep x hx).1)]
    exact ih (noTagB_drop cs (n - 1) (noTagB_tail cs h))
  · intro c cs hmm ih h
    rw [subst_cons_none hmm]
    by_cases hc : c = '<'
    · subst hc
      cases cs with
      | nil => rfl
      | cons d r =>
        by_cases hd : d = '>'
        · subst hd
          rw [subst_cons_none (hm r)]
          rw [noTagB_lt_gt]
          rw [noTagB_lt_gt] at h
          have := ih (by rw [noTagB_cons_ne r (by decide)]; exact h)
          rw [subst_cons_none (hm r), noTagB_cons_ne _ (by decide)] at this
          exact this
        · rw [noTagB_lt_other r hd] at h
          have hnomem := not_mem_of_contains_gt_false (d :: r) (by simpa using h)
          have hX : ∀ x ∈ subst m rep (d :: r), x ≠ '>' := by
            intro x hx
            rcases mem_subst hx with hx | hx
            · exact hnomem x hx
            · exact (hrep x hx).2
          cases hsub : subst m rep (d :: r) with
          | nil => rfl
          | cons e X =>
            have he : e ≠ '>' := by
              refine hX e ?_
              rw [hsub]
              exact List.mem_cons_self _ _
            rw [noTagB_lt_other X he]
            have hcf : (e :: X).contains '>' = false := by
              refine contains_gt_false _ ?_
              intro x hx
              refine hX x ?_
              rw [hsub]
              exact hx
            rw [hcf]
            rfl
    · rw [noTagB_cons_ne _ hc]
      rw [noTagB_cons_ne _ hc] at h
      exact ih h


/-! Bridge between the decidable and the propositional tag-freedom
statements. -/

theorem mem_of_contains_gt (l : List Char) (h : l.contains '>' = true) :
    '>' ∈ l := by
  rw [List.contains_eq_any_beq, List.any_eq_true] at h
  obtain ⟨x, hx, hbx⟩ := h
  have : '>' = x := by simpa using hbx
  exact this ▸ hx

theorem first_gt_split (u : List Char) (h : '>' ∈ u) :
    u = u.takeWhile (fun x => x != '>') ++
      '>' :: (u.dropWhile (fun x => x != '>')).tail := by
  have hne : u.dropWhile (fun x => x != '>') ≠ [] := by
    intro hcon
    have hall := dropWhile_eq_nil_all _ _ hcon
    have := hall '>' h
    simp at this
  cases hdw : u.dropWhile (fun x => x != '>') with
  | nil => exact absurd hdw hne
  | cons y b =>
    have hy : y = '>' := by
      have := dropWhile_head_false _ _ _ _ hdw
      simpa using this
    subst hy
    conv_lhs => rw [← List.takeWhile_append_dropWhile (fun x => x != '>') u]
    rw [hdw]
    rfl

theorem noTagB_sound : ∀ t : List Char, noTagB t = true → NoTagP t := by
  have key : ∀ n : Nat, ∀ t : List Char, t.length ≤ n →
      noTagB t = true → NoTagP t := by
    intro n
    induction n with
    | zero =>
      intro t ht _
      have h0 : t = [] := List.length_eq_zero.mp (Nat.le_zero.mp ht)
      subst h0
      intro a m b h
      cases a <;> simp at h
    | succ n ih =>
      intro t ht hb
      cases t with
      | nil => intro a m b h; cases a <;> simp at h
      | cons c cs =>
        simp only [List.length_cons] at ht
        by_cases hc : c = '<'
        · subst hc
          cases cs with
          | nil =>
            intro a m b h
            cases a with
            | nil =>
              simp only [List.nil_append, List.cons.injEq] at h
              exact absurd h.2.symm (by simp)
            | cons x a' => simp at h
          | cons d r =>
            by_cases hd : d = '>'
            · subst hd
              rw [noTagB_lt_gt] at hb
              have hp := ih r (by simp only [List.length_cons] at ht; omega) hb
              intro a m b heq
              cases a with
              | nil =>
                simp only [List.nil_append, List.cons.injEq] at heq
                cases m with
                | nil => exact Or.inl rfl
                | cons y m' =>
                  have hy : y = '>' := by
                    have := heq.2
                    simp only [List.cons_append] at this
                    exact (List.cons.inj this).1.symm
                  exact Or.inr (hy ▸ List.mem_cons_self _ _)
              | cons x a' =>
                simp only [List.cons_append, List.cons.injEq] at heq
                cases a' with
                | nil =>
                  simp only [List.nil_append, List.cons.injEq] at heq
                  exact absurd heq.2.1.symm (by decide)
                | cons z a'' =>
                  simp only [List.cons_append, List.cons.injEq] at heq
                  exact hp a'' m b heq.2.2
            · rw [noTagB_lt_other r hd] at hb
              have hnm := not_mem_of_contains_gt_false (d :: r) (by simpa using hb)
              intro a m b heq
              exfalso
              have hmem : '>' ∈ '<' :: d :: r := by
                rw [heq]
                refine List.mem_append_right _ ?_
                refine List.mem_cons_of_mem _ ?_
                exact List.mem_append_right _ (List.mem_cons_self _ _)
              rcases List.mem_cons.mp hmem with h1 | h1
              · exact absurd h1.symm (by decide)
              · exact hnm '>' h1 rfl
        · rw [noTagB_cons_ne cs hc] at hb
          have hp := ih cs (by omega) hb
          intro a m b heq
          cases a with
          | nil =>
            simp only [List.nil_append, List.cons.injEq] at heq
            exact absurd heq.1 hc
          | cons x a' =>
            simp only [List.cons_append, List.cons.injEq] at heq
            exact hp a' m b heq.2
  exact fun t => key t.length t (Nat.le_refl _)

theorem noTagB_complete : ∀ t : List Char, NoTagP t → noTagB t = true := by
  have key : ∀ n : Nat, ∀ t : List Char, t.length ≤ n →
      NoTagP t → noTagB t = true := by
    intro n
    induction n with
    | zero =>
      intro t ht _
      have h0 : t = [] := List.length_eq_zero.mp (Nat.le_zero.mp ht)
      subst h0
      rfl
    | succ n ih =>
      intro t ht hp
      cases t with
      | nil => rfl
      | cons c cs =>
        simp only [List.length_cons] at ht
        by_cases hc : c = '<'
        · subst hc
          cases cs with
          | nil => rfl
          | cons d r =>
            by_cases hd : d = '>'
            · subst hd
              rw [noTagB_lt_gt]
              refine ih r (by simp only [List.length_cons] at ht; omega) ?_
              intro a m b heq
              exact hp ('<' :: '>' :: a) m b (by rw [heq]; rfl)
            · rw [noTagB_lt_other r hd]
              cases hcont : (d :: r).contains '>' with
              | false => rfl
              | true =>
                exfalso
                have hmem := mem_of_contains_gt _ hcont
                have hsplit := first_gt_split (d :: r) hmem
                have hm1 : (d :: r).takeWhile (fun x => x != '>') =
                    d :: r.takeWhile (fun x => x != '>') :=
                  List.takeWhile_cons_of_pos (by simpa using hd)
                have := hp [] ((d :: r).takeWhile (fun x => x != '>'))
                  ((d :: r).dropWhile (fun x => x != '>')).tail
                  (by rw [List.nil_append]; exact congrArg ('<' :: ·) hsplit)
                rcases this with h1 | h1
                · rw [hm1] at h1
                  cases h1
                · have := List.mem_takeWhile_imp h1
                  simp at this
        · rw [noTagB_cons_ne cs hc]
          refine ih cs (by omega) ?_
          intro a m b heq
          exact hp (c :: a) m b (by rw [heq]; rfl)
  exact fun t => key t.length t (Nat.le_refl _)

theorem NoTagP_between (x y z : List Char) (h : NoTagP (x ++ y ++ z)) :
    NoTagP y := by
  intro a m b hy
  refine h (x ++ a) m (b ++ z) ?_
  rw [hy]
  simp [List.append_assoc]

theorem trim_decomposition (t : List Char) :
    t = t.takeWhile pyWs ++ pyStrip t ++
      ((ltrim t).reverse.takeWhile pyWs).reverse := by
  rw [List.append_assoc]
  conv_lhs => rw [← List.takeWhile_append_dropWhile pyWs t]
  congr 1
  have h := congrArg List.reverse
    (List.takeWhile_append_dropWhile pyWs (ltrim t).reverse)
  rw [List.reverse_append, List.reverse_reverse] at h
  exact h.symm

theorem noTagB_pyStrip (t : List Char) (h : noTagB t = true) :
    noTagB (pyStrip t) = true := by
  have hp := noTagB_sound t h
  have hfull : NoTagP (t.takeWhile pyWs ++ pyStrip t ++
      ((ltrim t).reverse.takeWhile pyWs).reverse) := by
    rw [← trim_decomposition t]
    exact hp
  exact noTagB_complete _ (NoTagP_between _ _ _ hfull)


/-! No matcher of `clean_css` can fire at a `>`. -/

theorem ciPref_gt {p : Char} (ps t : List Char)
    (h : (asciiLower p == '>') = false) :
    ciPref (p :: ps) ('>' :: t) = false := by
  have hgt : asciiLower '>' = '>' := by decide
  simp [ciPref, hgt, h]

theorem propM_gt (name t : List Char) (h : headNotGt name = true) :
    propM name ('>' :: t) = none := by
  cases name with
  | nil => simp [headNotGt] at h
  | cons c ps =>
    have hb : (asciiLower c == '>') = false := by
      simpa [headNotGt] using h
    simp [propM, ciPref_gt ps t hb]

theorem incM_gt (name t : List Char) (h : headNotGt name = true) :
    incM name ('>' :: t) = none := by
  cases name with
  | nil => simp [headNotGt] at h
  | cons c ps =>
    have hb : (asciiLower c == '>') = false := by
      simpa [headNotGt] using h
    simp [incM, ciPref_gt ps t hb]

theorem litM_gt (lit t : List Char) (h : headNotGt lit = true) :
    litM lit ('>' :: t) = none := by
  cases lit with
  | nil => simp [headNotGt] at h
  | cons c ps =>
    have hb : (asciiLower c == '>') = false := by
      simpa [headNotGt] using h
    simp [litM, ciPref_gt ps t hb]

theorem styleM_gt (t : List Char) : styleM ('>' :: t) = none := by
  have h := @ciPref_gt '<' ['s', 't', 'y', 'l', 'e'] t (by decide)
  simp [styleM, h]

theorem importM_gt (t : List Char) : importM ('>' :: t) = none := by
  have h := @ciPref_gt '@' ['i', 'm', 'p', 'o', 'r', 't'] t (by decide)
  simp [importM, h]

theorem commentM_gt (t : List Char) : commentM ('>' :: t) = none := by
  have h : ('/' == '>') = false := by decide
  simp [commentM, litPref, h]

theorem braceM_gt (t : List Char) : braceM ('>' :: t) = none := by
  have h : ('>'.isAlpha || '>' == '#' || '>' == '.') = false := by decide
  rw [braceM.eq_def]
  simp [h]

theorem genericM_gt (t : List Char) : genericM ('>' :: t) = none := by
  have h : ¬('>'.isAlpha = true ∨ '>' = '-') := by decide
  rw [genericM.eq_def]
  simp only []
  rw [if_neg (by simpa using h)]

theorem wsM_gt (t : List Char) : wsM ('>' :: t) = none := by
  have h : pyWs '>' = false := by decide
  simp [wsM, h]

theorem allCss_gtNone : ∀ mm ∈ allCssMatchers, ∀ t, mm ('>' :: t) = none := by
  have hexp : allCssMatchers =
      [styleM, importM, commentM, braceM,
       propM "font-family".data, propM "color".data,
       propM "background-color".data, propM "background".data,
       propM "padding".data, propM "margin".data, propM "border".data,
       propM "width".data, propM "height".data, propM "display".data,
       propM "position".data, propM "float".data, propM "clear".data,
       propM "overflow".data, propM "text-align".data,
       propM "line-height".data, propM "font-size".data,
       propM "font-weight".data, propM "text-decoration".data,
       litM "!important;".data,
       propM "outline".data, propM "border-collapse".data,
       propM "table-layout".data, propM "overflow-wrap".data,
       propM "word-wrap".data, propM "word-break".data,
       propM "-webkit-text-size-adjust".data, propM "-ms-word-break".data,
       propM "src".data, propM "format".data, propM "font-style".data,
       incM "line-height".data, incM "background".data, incM "border".data,
       incM "width".data, incM "height".data, incM "display".data,
       incM "position".data, incM "float".data, incM "clear".data,
       incM "overflow".data, incM "text-align".data, incM "font-size".data,
       incM "font-weight".data, incM "text-decoration".data,
       incM "outline".data, incM "border-collapse".data,
       incM "table-layout".data, incM "overflow-wrap".data,
       incM "word-wrap".data, incM "word-break".data,
       incM "-webkit-text-size-adjust".data, incM "-ms-word-break".data,
       incM "src".data, incM "format".data, incM "font-style".data,
       genericM] := by
    rfl
  rw [hexp]
  intro mm hmm t
  fin_cases hmm <;>
    first
      | exact styleM_gt t
      | exact importM_gt t
      | exact commentM_gt t
      | exact braceM_gt t
      | exact genericM_gt t
      | exact litM_gt _ t (by decide)
      | exact propM_gt _ t (by decide)
      | exact incM_gt _ t (by decide)

theorem noTagB_applyAll_gen : ∀ ms : List (List Char → Option Nat),
    (∀ mm ∈ ms, ∀ t, mm ('>' :: t) = none) →
    ∀ s, noTagB s = true → noTagB (applyAll ms s) = true := by
  intro ms
  induction ms with
  | nil => intro _ s h; exact h
  | cons m ms ih =>
    intro hall s h
    show noTagB (applyAll ms (subst m [] s)) = true
    refine ih (fun mm hmm => hall mm (List.mem_cons_of_mem _ hmm)) _ ?_
    exact noTagB_subst_pres m [] (hall m (List.mem_cons_self _ _)) (by simp) s h

theorem noTagB_clean_html (s : List Char) : noTagB (clean_html s) = true := by
  by_cases h : s = []
  · subst h; rfl
  · rw [clean_html, if_neg h]
    refine noTagB_pyStrip _ ?_
    refine noTagB_subst_pres wsM [' '] wsM_gt (by decide) _ ?_
    exact noTagB_subst_tagM s

theorem noTagB_clean_css (s : List Char) (h : noTagB s = true) :
    noTagB (clean_css s) = true := by
  by_cases h0 : s = []
  · subst h0; rfl
  · rw [clean_css, if_neg h0]
    refine noTagB_pyStrip _ ?_
    refine noTagB_subst_pres wsM [' '] wsM_gt (by decide) _ ?_
    exact noTagB_applyAll_gen allCssMatchers allCss_gtNone s h

theorem noTagB_strip (s : List Char) (h : noTagB s = true) :
    noTagB (strip s) = true := by
  rw [strip_eq_stripSpec s]
  have hcol := collapse_agree s
  rw [stripSpec, ← hcol]
  exact noTagB_pyStrip _ (noTagB_subst_pres wsM [' '] wsM_gt (by decide) s h)

/-! No two consecutive spaces in a collapsed string. -/

theorem noTwoSp_cons₂ (a b : Char) (r : List Char) :
    noTwoSp (a :: b :: r) = ((!(a == ' ' && b == ' ')) && noTwoSp (b :: r)) :=
  rfl

theorem noTwoSp_tail {c : Char} (cs : List Char)
    (h : noTwoSp (c :: cs) = true) : noTwoSp cs = true := by
  cases cs with
  | nil => rfl
  | cons d r =>
    rw [noTwoSp_cons₂, Bool.and_eq_true] at h
    exact h.2

theorem beq_space_false {c : Char} (h : pyWs c = false) : (c == ' ') = false := by
  cases hb : c == ' '
  · rfl
  · exfalso
    have h2 : c = ' ' := by simpa using hb
    rw [h2] at h
    exact absurd h (by decide)

theorem noTwoSp_word_prepend (w X : List Char)
    (hw : ∀ x ∈ w, pyWs x = false) (hX : noTwoSp X = true) :
    noTwoSp (w ++ X) = true := by
  induction w with
  | nil => simpa
  | cons c w' ih =>
    have hc : (c == ' ') = false :=
      beq_space_false (hw c (List.mem_cons_self _ _))
    rw [List.cons_append]
    cases hwx : w' ++ X with
    | nil => rfl
    | cons y ys =>
      rw [noTwoSp_cons₂, hc]
      simp only [Bool.false_and, Bool.not_false, Bool.true_and]
      rw [← hwx]
      exact ih (fun x hx => hw x (List.mem_cons_of_mem _ hx))

theorem noTwoSp_joinSp : ∀ L : List (List Char),
    (∀ w ∈ L, w ≠ [] ∧ ∀ c ∈ w, pyWs c = false) →
    noTwoSp (joinSp L) = true := by
  intro L
  induction L with
  | nil => intro _; rfl
  | cons w rest ih =>
    intro hL
    have hw := hL w (List.mem_cons_self _ _)
    cases rest with
    | nil =>
      have h := noTwoSp_word_prepend w [] hw.2 rfl
      simpa [joinSp] using h
    | cons x rest' =>
      rw [joinSp_cons_cons]
      refine noTwoSp_word_prepend w _ hw.2 ?_
      have hx := hL x (List.mem_cons_of_mem _ (List.mem_cons_self _ _))
      obtain ⟨e, x', rfl⟩ : ∃ e x', x = e :: x' := by
        cases x with
        | nil => exact absurd rfl hx.1
        | cons e x' => exact ⟨e, x', rfl⟩
      have he : (e == ' ') = false :=
        beq_space_false (hx.2 e (List.mem_cons_self _ _))
      have hrest : noTwoSp (joinSp ((e :: x') :: rest')) = true :=
        ih (fun v hv => hL v (List.mem_cons_of_mem _ hv))
      cases rest' with
      | nil =>
        show noTwoSp (' ' :: e :: x') = true
        rw [noTwoSp_cons₂, he]
        simp only [Bool.and_false, Bool.not_false, Bool.true_and]
        exact hrest
      | cons y rest'' =>
        show noTwoSp (' ' :: ((e :: x') ++ ' ' :: joinSp (y :: rest''))) = true
        rw [List.cons_append, noTwoSp_cons₂, he]
        simp only [Bool.and_false, Bool.not_false, Bool.true_and]
        rw [← List.cons_append, ← joinSp_cons_cons]
        exact hrest

theorem noTwoSp_sound : ∀ t : List Char, noTwoSp t = true →
    ∀ a b, t ≠ a ++ ' ' :: ' ' :: b := by
  intro t h a
  induction a generalizing t with
  | nil =>
    intro b heq
    rw [List.nil_append] at heq
    subst heq
    rw [noTwoSp_cons₂] at h
    simp at h
  | cons x a' ih =>
    intro b heq
    rw [List.cons_append] at heq
    subst heq
    exact ih _ (noTwoSp_tail _ h) b rfl

/-- C1: for every input, the output of `clean_strip` contains no substring
matching the tag pattern `<[^>]+>` — any bracketed decomposition has an empty
interior or an interior containing `>` — and no two consecutive ASCII space
characters. -/
theorem clean_strip_no_tag_no_double_space :
    ∀ s : List Char,
      (∀ a m b, clean_strip s = a ++ '<' :: (m ++ '>' :: b) →
        m = [] ∨ '>' ∈ m) ∧
      (∀ a b, clean_strip s ≠ a ++ ' ' :: ' ' :: b) := by
  intro s
  by_cases h0 : s = []
  · subst h0
    constructor
    · intro a m b h
      cases a <;> simp [clean_strip] at h
    · intro a b h
      cases a <;> simp [clean_strip] at h
  · have h1 : clean_strip s = strip (clean_css (clean_html s)) := by
      rw [clean_strip, if_neg h0]
    constructor
    · have ht : noTagB (clean_strip s) = true := by
        rw [h1]
        exact noTagB_strip _ (noTagB_clean_css _ (noTagB_clean_html s))
      exact noTagB_sound _ ht
    · intro a b
      rw [h1, strip_eq_stripSpec, stripSpec]
      exact noTwoSp_sound _ (noTwoSp_joinSp _ (pySplit_words _)) a b


/-! Identity of the markup-removal passes on markup-free strings (C4). -/

theorem toNat_ofNat_small (n : Nat) (h : n < 55296) : (Char.ofNat n).toNat = n := by
  have hv : n.isValidChar := Or.inl h
  simp [Char.ofNat, Char.ofNatAux, Char.toNat, hv]
  rfl

theorem asciiLower_low {c t : Char} (ht : t.toNat < 97) (h : asciiLower c = t) :
    c = t := by
  by_cases hc : (65 ≤ c.toNat && c.toNat ≤ 90) = true
  · exfalso
    rw [asciiLower, if_pos hc] at h
    simp only [Bool.and_eq_true, decide_eq_true_eq] at hc
    have h2 := congrArg Char.toNat h
    rw [toNat_ofNat_small (c.toNat + 32) (by omega)] at h2
    omega
  · rw [asciiLower, if_neg hc] at h
    exact h

theorem ciPref_head_ne {p c : Char} (ps cs : List Char)
    (hp : asciiLower p = p) (hlow : p.toNat < 97) (hne : c ≠ p) :
    ciPref (p :: ps) (c :: cs) = false := by
  cases hb : asciiLower p == asciiLower c with
  | false => simp [ciPref, hb]
  | true =>
    exfalso
    have heq : asciiLower p = asciiLower c := by simpa using hb
    rw [hp] at heq
    exact hne (asciiLower_low hlow heq.symm)

theorem tagM_none (u : List Char) (h : '<' ∉ u) : tagM u = none := by
  cases u with
  | nil => rfl
  | cons c cs =>
    have hc : c ≠ '<' := fun he => h (he ▸ List.mem_cons_self _ _)
    rw [tagM.eq_def]
    simp [hc]

theorem styleM_none (u : List Char) (h : '<' ∉ u) : styleM u = none := by
  cases u with
  | nil => rfl
  | cons c cs =>
    have hc : c ≠ '<' := fun he => h (he ▸ List.mem_cons_self _ _)
    have hcp := @ciPref_head_ne '<' c ['s', 't', 'y', 'l', 'e'] cs
      (by decide) (by decide) hc
    simp [styleM, hcp]

theorem importM_none (u : List Char) (h : '@' ∉ u) : importM u = none := by
  cases u with
  | nil => rfl
  | cons c cs =>
    have hc : c ≠ '@' := fun he => h (he ▸ List.mem_cons_self _ _)
    have hcp := @ciPref_head_ne '@' c ['i', 'm', 'p', 'o', 'r', 't'] cs
      (by decide) (by decide) hc
    simp [importM, hcp]

theorem commentM_none (u : List Char) (h : '/' ∉ u) : commentM u = none := by
  cases u with
  | nil => rfl
  | cons c cs =>
    have hc : c ≠ '/' := fun he => h (he ▸ List.mem_cons_self _ _)
    have hb : ('/' == c) = false := by
      cases hb2 : '/' == c
      · rfl
      · exact absurd (by simpa using hb2 : '/' = c).symm hc
    simp [commentM, litPref, hb]

theorem importantM_none (u : List Char) (h : '!' ∉ u) :
    litM "!important;".data u = none := by
  cases u with
  | nil => rfl
  | cons c cs =>
    have hc : c ≠ '!' := fun he => h (he ▸ List.mem_cons_self _ _)
    have hcp := @ciPref_head_ne '!' c "important;".data cs
      (by decide) (by decide) hc
    have hshape : "!important;".data = '!' :: "important;".data := rfl
    rw [litM, hshape, hcp]
    rfl

theorem braceM_none (u : List Char) (h : '{' ∉ u) : braceM u = none := by
  cases u with
  | nil => rfl
  | cons c cs =>
    rw [braceM.eq_def]
    dsimp only
    split
    · cases hdrop : cs.drop (cs.takeWhile braceClassA).length with
      | nil => simp [hdrop]
      | cons d rest2 =>
        have hd : d ≠ '{' := by
          have hmem : d ∈ cs :=
            List.mem_of_mem_drop (hdrop ▸ List.mem_cons_self d rest2)
          exact fun he => h (he ▸ List.mem_cons_of_mem _ hmem)
        simp [hdrop, hd]
    · rfl

theorem propM_none (name u : List Char) (h : ':' ∉ u) : propM name u = none := by
  rw [propM]
  split
  · cases hdrop : (u.drop name.length).drop
        ((u.drop name.length).takeWhile pyWs).length with
    | nil => simp [hdrop]
    | cons d rest2 =>
      have hd : d ≠ ':' := by
        have hmem : d ∈ u :=
          List.mem_of_mem_drop (List.mem_of_mem_drop
            (hdrop ▸ List.mem_cons_self d rest2))
        exact fun he => h (he ▸ hmem)
      simp [hdrop, hd]
  · rfl

theorem incM_none (name u : List Char) (h : ':' ∉ u) : incM name u = none := by
  rw [incM]
  split
  · cases hdrop : (u.drop name.length).drop
        ((u.drop name.length).takeWhile pyWs).length with
    | nil => simp [hdrop]
    | cons d rest2 =>
      have hd : d ≠ ':' := by
        have hmem : d ∈ u :=
          List.mem_of_mem_drop (List.mem_of_mem_drop
            (hdrop ▸ List.mem_cons_self d rest2))
        exact fun he => h (he ▸ hmem)
      simp [hdrop, hd]
  · rfl

theorem genericM_none (u : List Char) (h : ':' ∉ u) : genericM u = none := by
  cases u with
  | nil => rfl
  | cons c cs =>
    rw [genericM.eq_def]
    dsimp only
    split
    · cases hdrop : (cs.drop (cs.takeWhile (fun d => d.isAlpha || d == '-')).length).drop
          ((cs.drop (cs.takeWhile (fun d => d.isAlpha || d == '-')).length).takeWhile pyWs).length with
      | nil => simp [hdrop]
      | cons d rest2 =>
        have hd : d ≠ ':' := by
          have hmem : d ∈ cs :=
            List.mem_of_mem_drop (List.mem_of_mem_drop
              (hdrop ▸ List.mem_cons_self d rest2))
          exact fun he => h (he ▸ List.mem_cons_of_mem _ hmem)
        simp [hdrop, hd]
    · rfl

theorem applyAll_eq_self (ms : List (List Char → Option Nat)) (s : List Char)
    (hall : ∀ mm ∈ ms, ∀ i, mm (s.drop i) = none) : applyAll ms s = s := by
  induction ms with
  | nil => rfl
  | cons m ms ih =>
    show applyAll ms (subst m [] s) = s
    rw [subst_eq_self (hall m (List.mem_cons_self _ _))]
    exact ih (fun mm hmm => hall mm (List.mem_cons_of_mem _ hmm))

theorem markupFree_notin {s : List Char} (h : markupFree s) {c : Char}
    (hc : c ∈ (['<', '{', '@', ':', '!', '/'] : List Char)) : c ∉ s :=
  fun hs => h c hs hc

theorem applyAll_css_eq_self (s : List Char) (h : markupFree s) :
    applyAll allCssMatchers s = s := by
  refine applyAll_eq_self _ _ ?_
  intro mm hmm i
  have hlt : '<' ∉ s.drop i :=
    fun hx => markupFree_notin h (by decide) (List.mem_of_mem_drop hx)
  have hat : '@' ∉ s.drop i :=
    fun hx => markupFree_notin h (by decide) (List.mem_of_mem_drop hx)
  have hsl : '/' ∉ s.drop i :=
    fun hx => markupFree_notin h (by decide) (List.mem_of_mem_drop hx)
  have hbr : '{' ∉ s.drop i :=
    fun hx => markupFree_notin h (by decide) (List.mem_of_mem_drop hx)
  have hco : ':' ∉ s.drop i :=
    fun hx => markupFree_notin h (by decide) (List.mem_of_mem_drop hx)
  have hex : '!' ∉ s.drop i :=
    fun hx => markupFree_notin h (by decide) (List.mem_of_mem_drop hx)
  have hexp : allCssMatchers =
      [styleM, importM, commentM, braceM] ++
      ([ "font-family", "color", "background-color", "background", "padding",
         "margin", "border", "width", "height", "display", "position", "float",
         "clear", "overflow", "text-align", "line-height", "font-size",
         "font-weight", "text-decoration" ].map (fun n => propM n.data)) ++
      [litM "!important;".data] ++
      ([ "outline", "border-collapse", "table-layout", "overflow-wrap",
         "word-wrap", "word-break", "-webkit-text-size-adjust", "-ms-word-break",
         "src", "format", "font-style" ].map (fun n => propM n.data)) ++
      incompleteNames.map (fun n => incM n.data) ++ [genericM] := by
    simp [allCssMatchers, cssMatchers]
  rw [hexp] at hmm
  simp only [List.mem_append, List.mem_map, List.mem_cons,
    List.not_mem_nil, or_false] at hmm
  rcases hmm with ((((h4 | hprop1) | rfl) | hprop2) | hinc) | rfl
  · rcases h4 with rfl | rfl | rfl | rfl
    · exact styleM_none _ hlt
    · exact importM_none _ hat
    · exact commentM_none _ hsl
    · exact braceM_none _ hbr
  · obtain ⟨n, _, rfl⟩ := hprop1
    exact propM_none _ _ hco
  · exact importantM_none _ hex
  · obtain ⟨n, _, rfl⟩ := hprop2
    exact propM_none _ _ hco
  · obtain ⟨n, _, rfl⟩ := hinc
    exact incM_none _ _ hco
  · exact genericM_none _ hco

theorem mem_pyStrip {t : List Char} {x : Char} (h : x ∈ pyStrip t) : x ∈ t := by
  rw [trim_decomposition t]
  exact List.mem_append_left _ (List.mem_append_right _ h)

theorem markupFree_stripSpec (s : List Char) (h : markupFree s) :
    markupFree (stripSpec s) := by
  intro c hc hmem
  have hcs : c ∈ subst wsM [' '] s := by
    have hcol := collapse_agree s
    rw [stripSpec, ← hcol] at hc
    exact mem_pyStrip hc
  rcases mem_subst hcs with hx | hx
  · exact h c hx hmem
  · have : c = ' ' := by simpa using hx
    subst this
    simp at hmem

theorem clean_strip_markupFree_eq (s : List Char) (h : markupFree s) :
    clean_strip s = stripSpec s := by
  by_cases h0 : s = []
  · subst h0; rfl
  · have hhtml : clean_html s = stripSpec s := by
      rw [clean_html, if_neg h0]
      have htag : subst tagM [] s = s := by
        refine subst_eq_self ?_
        intro i
        refine tagM_none _ ?_
        exact fun hx => markupFree_notin h (by decide) (List.mem_of_mem_drop hx)
      rw [htag, collapse_agree, stripSpec]
    rw [clean_strip, if_neg h0, hhtml]
    have hmf := markupFree_stripSpec s h
    by_cases h1 : stripSpec s = []
    · rw [h1]
      rfl
    · have hcss : clean_css (stripSpec s) = stripSpec s := by
        rw [clean_css, if_neg h1, applyAll_css_eq_self _ hmf, collapse_agree]
        show stripSpec (stripSpec s) = stripSpec s
        exact stripSpec_idem s
      rw [hcss, strip_eq_stripSpec, stripSpec_idem]

/-- C4: on every input already free of markup — containing none of the
characters that open an HTML tag or a CSS construct — `clean_strip` is
idempotent. -/
theorem clean_strip_idempotent (s : List Char) (h : markupFree s) :
    clean_strip (clean_strip s) = clean_strip s := by
  rw [clean_strip_markupFree_eq s h,
    clean_strip_markupFree_eq (stripSpec s) (markupFree_stripSpec s h),
    stripSpec_idem]

/-- Witness for C4 at a concrete markup-free body. -/
theorem clean_strip_idempotent_witness :
    clean_strip (clean_strip "hello  world".data) =
      clean_strip "hello  world".data :=
  clean_strip_idempotent "hello  world".data (by intro c hc; fin_cases hc <;> decide)

end GmailArchive
